import Mathlib

/-!
Verification development for the clearinghouse settlement engine.

The definitions below are a shallow embedding of the Python sources:
  app/settle.py        (apply_bilateral_netting, apply_policy_and_settle)
  app/audit.py         (get_audit_payload)
  app/utils/crypto.py  (create_transaction_hash)
Python floats are embedded as exact rationals; Python machine behaviour
(binary rounding) is outside the embedding, which mirrors the arithmetic
expressions of the source exactly over ℚ.  The while-loop of the netting
phase is embedded with explicit fuel, since for some inputs the source
loop does not terminate; every theorem about a finished run is stated
under the hypothesis that the run returned a result.
-/

namespace Clearing

/-- Tolerance 1e-9 used throughout app/settle.py.  Written with mkRat so
that concrete runs reduce by decide. -/
def tol : ℚ := mkRat 1 1000000000

theorem tol_pos : 0 < tol := by norm_num [tol, mkRat, Rat.normalize]

/-- The per-participant balance bucket of app/settle.py
(defaultdict entries with fields credit and debit; the derived
fields net and final_net of the source are recomputed, not stored). -/
structure Bal where
  credit : ℚ
  debit : ℚ
deriving DecidableEq

/-- State of the cross-participant matching while-loop of
apply_bilateral_netting (settle.py lines 44-63): the two sorted balance
lists, the two cursors and the transfer audit trail. -/
structure NetState where
  pos : List (Nat × ℚ)
  neg : List (Nat × ℚ)
  i : Nat
  j : Nat
  transfers : List (Nat × Nat × ℚ)
deriving DecidableEq

/-- Loop guard of settle.py line 45: while i < len(positive_balances) and
j < len(negative_balances). -/
def NetState.guard (s : NetState) : Prop :=
  s.i < s.pos.length ∧ s.j < s.neg.length

instance (s : NetState) : Decidable s.guard := by
  unfold NetState.guard; infer_instance

/-- Current creditor entry positive_balances[i] (settle.py line 46). -/
def curC (s : NetState) : Nat × ℚ := s.pos.getD s.i (0, 0)

/-- Current debtor entry negative_balances[j] (settle.py line 47). -/
def curD (s : NetState) : Nat × ℚ := s.neg.getD s.j (0, 0)

/-- transfer_amount = min(credit_amount, debt_amount) (settle.py line 50). -/
def curT (s : NetState) : ℚ := min (curC s).2 (curD s).2

/-- The guarded transfer of settle.py lines 52-57: only amounts above the
tolerance are recorded and deducted. -/
def transferOf (s : NetState) : NetState :=
  if curT s > tol then
    { s with pos := s.pos.set s.i ((curC s).1, (curC s).2 - curT s),
             neg := s.neg.set s.j ((curD s).1, (curD s).2 - curT s),
             transfers := s.transfers ++ [((curD s).1, (curC s).1, curT s)] }
  else s

/-- The cursor advance of settle.py lines 59-63, applied to the updated
state. -/
def advanceOf (s1 : NetState) : NetState :=
  { s1 with i := if (curC s1).2 < tol then s1.i + 1 else s1.i,
            j := if (curD s1).2 < tol then s1.j + 1 else s1.j }

/-- One iteration of the while-loop body of settle.py lines 46-63. -/
def netStep (s : NetState) : NetState := advanceOf (transferOf s)

/-- The while-loop of settle.py lines 45-63, with explicit fuel.  A result
of none means the loop did not finish within the given fuel (for the fuel
chosen in apply_bilateral_netting this only happens when the source loop
runs forever). -/
def netLoop : Nat → NetState → Option NetState
  | 0, s => if s.guard then none else some s
  | f + 1, s => if s.guard then netLoop f (netStep s) else some s

/-- Python list.sort(key=lambda x: x[1], reverse=True): insertion sort by
descending amount (settle.py lines 38-39).  Only the permutation property
of the sort is used by the theorems. -/
def insertDesc (x : Nat × ℚ) : List (Nat × ℚ) → List (Nat × ℚ)
  | [] => [x]
  | y :: l => if x.2 ≥ y.2 then x :: y :: l else y :: insertDesc x l

def sortDesc : List (Nat × ℚ) → List (Nat × ℚ)
  | [] => []
  | x :: l => insertDesc x (sortDesc l)

/-- Reading of the final_balances dict (settle.py lines 41, 65-70): every
participant starts at 0.0, then remaining credits are written, then
remaining debts overwrite (negated). -/
def finalOf (pos neg : List (Nat × ℚ)) (pid : Nat) : ℚ :=
  match List.lookup pid neg with
  | some d => -d
  | none =>
    match List.lookup pid pos with
    | some c => c
    | none => 0

/-- Netting statistics bundle of settle.py lines 75-82. -/
structure NettingStats where
  total_transfers : Nat
  internal_netting_efficiency : ℚ
  bilateral_netting_efficiency : ℚ
  overall_netting_efficiency : ℚ
  volume_reduction : ℚ
  transfers_list : List (Nat × Nat × ℚ)
deriving DecidableEq

/-- internal_netted of settle.py lines 20-27: net = credit - debit per
participant, in dict insertion order. -/
def internalOf (bal : List (Nat × Bal)) : List (Nat × ℚ) :=
  bal.map (fun x => (x.1, x.2.credit - x.2.debit))

/-- Filter predicate of settle.py line 34: amount > 1e-9. -/
def isPos (x : Nat × ℚ) : Bool := x.2 > tol

/-- Filter predicate of settle.py line 35: amount < -1e-9. -/
def isNeg (x : Nat × ℚ) : Bool := x.2 < -tol

/-- positive_balances after the sort (settle.py lines 34, 38). -/
def pos0Of (bal : List (Nat × Bal)) : List (Nat × ℚ) :=
  sortDesc ((internalOf bal).filter isPos)

/-- negative_balances after the sort (settle.py lines 35, 39); amounts are
stored as positive debts. -/
def neg0Of (bal : List (Nat × Bal)) : List (Nat × ℚ) :=
  sortDesc (((internalOf bal).filter isNeg).map (fun x => (x.1, -x.2)))

/-- The loop state at entry of settle.py line 45. -/
def initState (bal : List (Nat × Bal)) : NetState :=
  ⟨pos0Of bal, neg0Of bal, 0, 0, []⟩

/-- apply_bilateral_netting (settle.py lines 11-84).  The returned final
balances keep the dict iteration order of the input; the fuel
pos.length + neg.length + 1 is enough for every terminating run of the
source loop, because every iteration that changes the state advances at
least one cursor. -/
def apply_bilateral_netting (bal : List (Nat × Bal)) :
    Option (List (Nat × ℚ) × NettingStats) :=
  let total_abs_before_internal := (bal.map (fun x => |x.2.credit| + |x.2.debit|)).sum
  let total_abs_after_internal := ((internalOf bal).map (fun x => |x.2|)).sum
  match netLoop ((pos0Of bal).length + (neg0Of bal).length + 1) (initState bal) with
  | none => none
  | some s =>
    let final := (internalOf bal).map (fun x => (x.1, finalOf s.pos s.neg x.1))
    let total_abs_after_bilateral := (final.map (fun x => |x.2|)).sum
    some (final,
      { total_transfers := s.transfers.length
        internal_netting_efficiency :=
          if total_abs_before_internal > 0 then
            1 - total_abs_after_internal / total_abs_before_internal else 0
        bilateral_netting_efficiency :=
          if total_abs_after_internal > 0 then
            1 - total_abs_after_bilateral / total_abs_after_internal else 0
        overall_netting_efficiency :=
          if total_abs_before_internal > 0 then
            1 - total_abs_after_bilateral / total_abs_before_internal else 0
        volume_reduction := total_abs_before_internal - total_abs_after_bilateral
        transfers_list := s.transfers })

/-! ### Generic association-list and summation helpers -/

theorem lookup_eq_none_of_not_mem {α β : Type} [BEq α] [LawfulBEq α]
    {k : α} : ∀ {l : List (α × β)}, k ∉ l.map Prod.fst → List.lookup k l = none := by
  intro l
  induction l with
  | nil => intro _; rfl
  | cons x xs ih =>
    intro h
    simp only [List.map_cons, List.mem_cons] at h
    push_neg at h
    cases hk : k == x.1 with
    | true => exact absurd (by simpa using hk) h.1
    | false => simp only [List.lookup, hk]; exact ih h.2

theorem lookup_some_mem {α β : Type} [BEq α] [LawfulBEq α]
    {k : α} {v : β} : ∀ {l : List (α × β)}, List.lookup k l = some v → (k, v) ∈ l := by
  intro l
  induction l with
  | nil => intro h; simp [List.lookup] at h
  | cons x xs ih =>
    intro h
    cases hk : k == x.1 with
    | true =>
      simp only [List.lookup, hk] at h
      injection h with h
      have hk' : k = x.1 := by simpa using hk
      exact List.mem_cons.mpr (Or.inl (by rw [hk', ← h]))
    | false =>
      simp only [List.lookup, hk] at h
      exact List.mem_cons_of_mem _ (ih h)

theorem key_unique {α β : Type} {k : α} {v₁ v₂ : β} :
    ∀ {l : List (α × β)}, (l.map Prod.fst).Nodup →
    (k, v₁) ∈ l → (k, v₂) ∈ l → v₁ = v₂ := by
  intro l
  induction l with
  | nil => intro _ h; simp at h
  | cons x xs ih =>
    intro hnd h1 h2
    simp only [List.map_cons, List.nodup_cons] at hnd
    rcases List.mem_cons.mp h1 with ha | ha
    · rcases List.mem_cons.mp h2 with hb | hb
      · exact congrArg Prod.snd (ha.trans hb.symm)
      · exfalso
        have hx : x.1 = k := by rw [← ha]
        apply hnd.1
        rw [hx]
        exact List.mem_map.mpr ⟨(k, v₂), hb, rfl⟩
    · rcases List.mem_cons.mp h2 with hb | hb
      · exfalso
        have hx : x.1 = k := by rw [← hb]
        apply hnd.1
        rw [hx]
        exact List.mem_map.mpr ⟨(k, v₁), ha, rfl⟩
      · exact ih hnd.2 ha hb

theorem sum_map_negq {α : Type} (f : α → ℚ) (l : List α) :
    (l.map (fun x => -f x)).sum = -(l.map f).sum := by
  induction l with
  | nil => simp
  | cons x xs ih => simp [ih]; ring

theorem sum_map_subq {α : Type} (f g : α → ℚ) (l : List α) :
    (l.map (fun x => f x - g x)).sum = (l.map f).sum - (l.map g).sum := by
  induction l with
  | nil => simp
  | cons x xs ih => simp [ih]; ring

theorem insertDesc_perm (x : Nat × ℚ) (l : List (Nat × ℚ)) :
    (insertDesc x l).Perm (x :: l) := by
  induction l with
  | nil => simp [insertDesc]
  | cons y ys ih =>
    rw [insertDesc]
    by_cases h : x.2 ≥ y.2
    · rw [if_pos h]
    · rw [if_neg h]
      exact ((ih.cons y).trans (List.Perm.swap x y ys))

theorem sortDesc_perm (l : List (Nat × ℚ)) : (sortDesc l).Perm l := by
  induction l with
  | nil => simp [sortDesc]
  | cons x xs ih =>
    rw [sortDesc]
    exact (insertDesc_perm x (sortDesc xs)).trans (ih.cons x)

/-- Sum of the amount components of a balance list. -/
def sumVals (l : List (Nat × ℚ)) : ℚ := (l.map (fun x => x.2)).sum

theorem sumVals_set (l : List (Nat × ℚ)) (i : Nat) (a : Nat × ℚ) (h : i < l.length) :
    sumVals (l.set i a) = sumVals l - l[i].2 + a.2 := by
  induction l generalizing i with
  | nil => simp at h
  | cons x xs ih =>
    cases i with
    | zero => simp [sumVals]; ring
    | succ n =>
      have hn : n < xs.length := by simpa using h
      have := ih n hn
      simp only [List.set_cons_succ, sumVals, List.map_cons, List.sum_cons,
        List.getElem_cons_succ] at this ⊢
      rw [this]
      ring

theorem map_fst_set (l : List (Nat × ℚ)) (i : Nat) (a : Nat × ℚ) (h : i < l.length)
    (ha : a.1 = l[i].1) : (l.set i a).map Prod.fst = l.map Prod.fst := by
  induction l generalizing i with
  | nil => simp at h
  | cons x xs ih =>
    cases i with
    | zero =>
      simp only [List.getElem_cons_zero] at ha
      simp [ha]
    | succ n =>
      have hn : n < xs.length := by simpa using h
      simp only [List.getElem_cons_succ] at ha
      simp only [List.set_cons_succ, List.map_cons]
      rw [ih n hn ha]

/-! ### Properties of the matching loop -/

theorem netLoop_inv {P : NetState → Prop}
    (hP : ∀ s, s.guard → P s → P (netStep s)) :
    ∀ (f : Nat) (s s' : NetState), netLoop f s = some s' → P s → P s' := by
  intro f
  induction f with
  | zero =>
    intro s s' h hp
    rw [netLoop] at h
    by_cases hg : s.guard
    · rw [if_pos hg] at h; exact absurd h (by simp)
    · rw [if_neg hg] at h; injection h with h; rw [← h]; exact hp
  | succ f ih =>
    intro s s' h hp
    rw [netLoop] at h
    by_cases hg : s.guard
    · rw [if_pos hg] at h
      exact ih _ _ h (hP s hg hp)
    · rw [if_neg hg] at h; injection h with h; rw [← h]; exact hp

theorem netLoop_not_guard :
    ∀ (f : Nat) (s s' : NetState), netLoop f s = some s' → ¬ s'.guard := by
  intro f
  induction f with
  | zero =>
    intro s s' h
    rw [netLoop] at h
    by_cases hg : s.guard
    · rw [if_pos hg] at h; exact absurd h (by simp)
    · rw [if_neg hg] at h; injection h with h; rw [← h]; exact hg
  | succ f ih =>
    intro s s' h
    rw [netLoop] at h
    by_cases hg : s.guard
    · rw [if_pos hg] at h; exact ih _ _ h
    · rw [if_neg hg] at h; injection h with h; rw [← h]; exact hg

theorem advanceOf_pos (s : NetState) : (advanceOf s).pos = s.pos := rfl

theorem advanceOf_neg (s : NetState) : (advanceOf s).neg = s.neg := rfl

theorem advanceOf_transfers (s : NetState) : (advanceOf s).transfers = s.transfers := rfl

theorem transferOf_i (s : NetState) : (transferOf s).i = s.i := by
  rw [transferOf]; split <;> rfl

theorem transferOf_j (s : NetState) : (transferOf s).j = s.j := by
  rw [transferOf]; split <;> rfl

theorem transferOf_of_big (s : NetState) (h : tol < curT s) :
    transferOf s =
      { s with pos := s.pos.set s.i ((curC s).1, (curC s).2 - curT s),
               neg := s.neg.set s.j ((curD s).1, (curD s).2 - curT s),
               transfers := s.transfers ++ [((curD s).1, (curC s).1, curT s)] } := by
  rw [transferOf, if_pos h]

theorem transferOf_of_small (s : NetState) (h : ¬ tol < curT s) :
    transferOf s = s := by
  rw [transferOf, if_neg h]

theorem curC_eq_getElem (s : NetState) (h : s.i < s.pos.length) :
    curC s = s.pos[s.i] := List.getD_eq_getElem s.pos (0, 0) h

theorem curD_eq_getElem (s : NetState) (h : s.j < s.neg.length) :
    curD s = s.neg[s.j] := List.getD_eq_getElem s.neg (0, 0) h

/-- Ids are never changed by an iteration of the loop. -/
theorem netStep_map_fst (s : NetState) (hg : s.guard) :
    (netStep s).pos.map Prod.fst = s.pos.map Prod.fst ∧
    (netStep s).neg.map Prod.fst = s.neg.map Prod.fst := by
  rw [netStep, advanceOf_pos, advanceOf_neg]
  by_cases h : tol < curT s
  · rw [transferOf_of_big s h]
    constructor
    · exact map_fst_set s.pos s.i _ hg.1 (by rw [curC_eq_getElem s hg.1])
    · exact map_fst_set s.neg s.j _ hg.2 (by rw [curD_eq_getElem s hg.2])
  · rw [transferOf_of_small s h]; exact ⟨rfl, rfl⟩

/-- Value sums after one iteration: either a transfer strictly above the
tolerance is applied to both sides, or the lists are unchanged. -/
theorem netStep_sums (s : NetState) (hg : s.guard) :
    (tol < curT s ∧
      sumVals (netStep s).pos = sumVals s.pos - curT s ∧
      sumVals (netStep s).neg = sumVals s.neg - curT s) ∨
    (curT s ≤ tol ∧ (netStep s).pos = s.pos ∧ (netStep s).neg = s.neg) := by
  rw [netStep, advanceOf_pos, advanceOf_neg]
  by_cases h : tol < curT s
  · left
    refine ⟨h, ?_, ?_⟩
    · rw [transferOf_of_big s h]
      have := sumVals_set s.pos s.i ((curC s).1, (curC s).2 - curT s) hg.1
      rw [this, curC_eq_getElem s hg.1]
      ring
    · rw [transferOf_of_big s h]
      have := sumVals_set s.neg s.j ((curD s).1, (curD s).2 - curT s) hg.2
      rw [this, curD_eq_getElem s hg.2]
      ring
  · right
    rw [transferOf_of_small s h]
    exact ⟨le_of_not_lt h, rfl, rfl⟩

theorem netStep_diff (s : NetState) (hg : s.guard) :
    sumVals (netStep s).pos - sumVals (netStep s).neg =
      sumVals s.pos - sumVals s.neg := by
  rcases netStep_sums s hg with ⟨_, h1, h2⟩ | ⟨_, h1, h2⟩ <;> rw [h1, h2] <;> ring

theorem netStep_tot_le (s : NetState) (hg : s.guard) :
    sumVals (netStep s).pos + sumVals (netStep s).neg ≤
      sumVals s.pos + sumVals s.neg := by
  rcases netStep_sums s hg with ⟨ht, h1, h2⟩ | ⟨_, h1, h2⟩
  · rw [h1, h2]
    have : 0 < curT s := lt_trans tol_pos ht
    linarith
  · rw [h1, h2]

theorem netStep_tot_drop (s : NetState) (hg : s.guard) (ht : tol < curT s) :
    sumVals (netStep s).pos + sumVals (netStep s).neg =
      sumVals s.pos + sumVals s.neg - 2 * curT s := by
  rcases netStep_sums s hg with ⟨_, h1, h2⟩ | ⟨hle, _, _⟩
  · rw [h1, h2]; ring
  · exact absurd ht (not_lt_of_le hle)

/-- Values stay nonnegative through an iteration. -/
theorem netStep_nonneg (s : NetState) (hg : s.guard)
    (hp : ∀ x ∈ s.pos, 0 ≤ x.2) (hn : ∀ x ∈ s.neg, 0 ≤ x.2) :
    (∀ x ∈ (netStep s).pos, 0 ≤ x.2) ∧ (∀ x ∈ (netStep s).neg, 0 ≤ x.2) := by
  rw [netStep, advanceOf_pos, advanceOf_neg]
  by_cases h : tol < curT s
  · rw [transferOf_of_big s h]
    constructor
    · intro x hx
      rcases List.mem_or_eq_of_mem_set hx with hx | hx
      · exact hp x hx
      · rw [hx]
        have : curT s ≤ (curC s).2 := min_le_left _ _
        simp only
        linarith
    · intro x hx
      rcases List.mem_or_eq_of_mem_set hx with hx | hx
      · exact hn x hx
      · rw [hx]
        have : curT s ≤ (curD s).2 := min_le_right _ _
        simp only
        linarith
  · rw [transferOf_of_small s h]
    exact ⟨hp, hn⟩

theorem transferOf_pos_length (s : NetState) :
    (transferOf s).pos.length = s.pos.length := by
  rw [transferOf]; split
  · exact List.length_set _ _ _
  · rfl

theorem transferOf_neg_length (s : NetState) :
    (transferOf s).neg.length = s.neg.length := by
  rw [transferOf]; split
  · exact List.length_set _ _ _
  · rfl

theorem transferOf_pos_getElem?_ne (s : NetState) (k : Nat) (hk : k ≠ s.i) :
    (transferOf s).pos[k]? = s.pos[k]? := by
  rw [transferOf]
  split
  · exact List.getElem?_set_ne (fun h => hk h.symm)
  · rfl

theorem transferOf_neg_getElem?_ne (s : NetState) (k : Nat) (hk : k ≠ s.j) :
    (transferOf s).neg[k]? = s.neg[k]? := by
  rw [transferOf]
  split
  · exact List.getElem?_set_ne (fun h => hk h.symm)
  · rfl

theorem netStep_i (s : NetState) :
    (netStep s).i = if (curC (transferOf s)).2 < tol then s.i + 1 else s.i := by
  rw [netStep, advanceOf, transferOf_i]

theorem netStep_j (s : NetState) :
    (netStep s).j = if (curD (transferOf s)).2 < tol then s.j + 1 else s.j := by
  rw [netStep, advanceOf, transferOf_j]

theorem curC_eq_getElem? (s : NetState) :
    curC s = (s.pos[s.i]?).getD (0, 0) := by
  rw [curC, List.getD_eq_getElem?_getD]

theorem curD_eq_getElem? (s : NetState) :
    curD s = (s.neg[s.j]?).getD (0, 0) := by
  rw [curD, List.getD_eq_getElem?_getD]

/-- A cursor only ever moves past entries whose remaining amount is below
the tolerance. -/
theorem netStep_prefix (s : NetState) (hg : s.guard)
    (hp : ∀ (k : Nat), k < s.i → ∀ x, s.pos[k]? = some x → x.2 < tol)
    (hn : ∀ (k : Nat), k < s.j → ∀ x, s.neg[k]? = some x → x.2 < tol) :
    (∀ (k : Nat), k < (netStep s).i → ∀ x, (netStep s).pos[k]? = some x → x.2 < tol) ∧
    (∀ (k : Nat), k < (netStep s).j → ∀ x, (netStep s).neg[k]? = some x → x.2 < tol) := by
  have hpl : (netStep s).pos = (transferOf s).pos := advanceOf_pos _
  have hnl : (netStep s).neg = (transferOf s).neg := advanceOf_neg _
  constructor
  · intro k hk x hx
    rw [hpl] at hx
    rw [netStep_i] at hk
    by_cases hc : (curC (transferOf s)).2 < tol
    · rw [if_pos hc] at hk
      by_cases hki : k = s.i
      · have hcc : curC (transferOf s) = x := by
          rw [curC_eq_getElem?, transferOf_i, ← hki, hx]
          rfl
        rw [← hcc]
        exact hc
      · rw [transferOf_pos_getElem?_ne s k hki] at hx
        exact hp k (by omega) x hx
    · rw [if_neg hc] at hk
      have hki : k ≠ s.i := by omega
      rw [transferOf_pos_getElem?_ne s k hki] at hx
      exact hp k (by omega) x hx
  · intro k hk x hx
    rw [hnl] at hx
    rw [netStep_j] at hk
    by_cases hc : (curD (transferOf s)).2 < tol
    · rw [if_pos hc] at hk
      by_cases hkj : k = s.j
      · have hcc : curD (transferOf s) = x := by
          rw [curD_eq_getElem?, transferOf_j, ← hkj, hx]
          rfl
        rw [← hcc]
        exact hc
      · rw [transferOf_neg_getElem?_ne s k hkj] at hx
        exact hn k (by omega) x hx
    · rw [if_neg hc] at hk
      have hkj : k ≠ s.j := by omega
      rw [transferOf_neg_getElem?_ne s k hkj] at hx
      exact hn k (by omega) x hx

/-! ### Reading the final balance dict back as sums -/

theorem finalOf_cons (pos : List (Nat × ℚ)) (y : Nat × ℚ) (ys : List (Nat × ℚ))
    (pid : Nat) :
    finalOf pos (y :: ys) pid = if pid = y.1 then -y.2 else finalOf pos ys pid := by
  rw [finalOf, finalOf]
  by_cases h : pid = y.1
  · cases hk : (pid == y.1) with
    | true => simp only [List.lookup, hk, if_pos h]
    | false => exact absurd (by simpa using hk) (by simpa using h)
  · cases hk : (pid == y.1) with
    | true => exact absurd (by simpa using hk) h
    | false => simp only [List.lookup, hk, if_neg h]

theorem finalOf_nil (pos : List (Nat × ℚ)) (pid : Nat) :
    finalOf pos [] pid = ((List.lookup pid pos).map id).getD 0 := by
  rw [finalOf]
  cases List.lookup pid pos <;> rfl

theorem sum_lookup (φ : ℚ → ℚ) (hφ : φ 0 = 0) :
    ∀ (pos : List (Nat × ℚ)) (ids : List Nat), ids.Nodup →
    (pos.map Prod.fst).Nodup → (∀ k ∈ pos.map Prod.fst, k ∈ ids) →
    (ids.map (fun pid => φ ((List.lookup pid pos).getD 0))).sum
      = (pos.map (fun x => φ x.2)).sum := by
  intro pos
  induction pos with
  | nil =>
    intro ids _ _ _
    simp [List.lookup, hφ]
  | cons x xs ih =>
    intro ids hids hnd hsub
    have hx : x.1 ∈ ids := hsub x.1 (by simp)
    obtain ⟨l1, l2, rfl⟩ := List.append_of_mem hx
    have hmid := List.nodup_middle.mp hids
    rw [List.nodup_cons] at hmid
    simp only [List.map_cons, List.nodup_cons] at hnd
    have hcongr : ∀ pid ∈ l1 ++ l2,
        φ ((List.lookup pid (x :: xs)).getD 0) = φ ((List.lookup pid xs).getD 0) := by
      intro pid hpid
      have hne : pid ≠ x.1 := by
        intro hcontra
        apply hmid.1
        rw [← hcontra]
        exact hpid
      cases hk : (pid == x.1) with
      | true => exact absurd (by simpa using hk) hne
      | false => simp only [List.lookup, hk]
    have hself : φ ((List.lookup x.1 (x :: xs)).getD 0) = φ x.2 := by
      have : (x.1 == x.1) = true := by simp
      simp only [List.lookup, this, Option.getD_some]
    have hih : ((l1 ++ l2).map (fun pid => φ ((List.lookup pid xs).getD 0))).sum
        = (xs.map (fun x => φ x.2)).sum := by
      apply ih (l1 ++ l2) hmid.2 hnd.2
      intro k hkmem
      have hk1 : k ∈ l1 ++ x.1 :: l2 := hsub k (by simp [hkmem])
      have hkne : k ≠ x.1 := fun hcontra => hnd.1 (hcontra ▸ hkmem)
      rcases List.mem_append.mp hk1 with h | h
      · exact List.mem_append.mpr (Or.inl h)
      · rcases List.mem_cons.mp h with h | h
        · exact absurd h hkne
        · exact List.mem_append.mpr (Or.inr h)
    calc ((l1 ++ x.1 :: l2).map (fun pid => φ ((List.lookup pid (x :: xs)).getD 0))).sum
        = (l1.map (fun pid => φ ((List.lookup pid (x :: xs)).getD 0))).sum + (φ x.2 +
          (l2.map (fun pid => φ ((List.lookup pid (x :: xs)).getD 0))).sum) := by
          rw [List.map_append, List.sum_append, List.map_cons, List.sum_cons, hself]
      _ = (l1.map (fun pid => φ ((List.lookup pid xs).getD 0))).sum + (φ x.2 +
          (l2.map (fun pid => φ ((List.lookup pid xs).getD 0))).sum) := by
          rw [List.map_congr_left (fun pid hpid =>
              hcongr pid (List.mem_append.mpr (Or.inl hpid))),
            List.map_congr_left (fun pid hpid =>
              hcongr pid (List.mem_append.mpr (Or.inr hpid)))]
      _ = φ x.2 + ((l1 ++ l2).map (fun pid => φ ((List.lookup pid xs).getD 0))).sum := by
          rw [List.map_append, List.sum_append]; ring
      _ = φ x.2 + (xs.map (fun x => φ x.2)).sum := by rw [hih]
      _ = ((x :: xs).map (fun x => φ x.2)).sum := by rw [List.map_cons, List.sum_cons]

theorem sum_finalOf (φ : ℚ → ℚ) (hφ : φ 0 = 0) :
    ∀ (neg pos : List (Nat × ℚ)) (ids : List Nat), ids.Nodup →
    (pos.map Prod.fst).Nodup → (∀ k ∈ pos.map Prod.fst, k ∈ ids) →
    (neg.map Prod.fst).Nodup → (∀ k ∈ neg.map Prod.fst, k ∈ ids) →
    (∀ k ∈ neg.map Prod.fst, k ∉ pos.map Prod.fst) →
    (ids.map (fun pid => φ (finalOf pos neg pid))).sum
      = (pos.map (fun x => φ x.2)).sum + (neg.map (fun x => φ (-x.2))).sum := by
  intro neg
  induction neg with
  | nil =>
    intro pos ids hids hndp hsubp _ _ _
    have : ∀ pid ∈ ids, φ (finalOf pos [] pid) = φ ((List.lookup pid pos).getD 0) := by
      intro pid _
      rw [finalOf_nil]
      cases List.lookup pid pos <;> rfl
    rw [List.map_congr_left this, sum_lookup φ hφ pos ids hids hndp hsubp]
    simp
  | cons y ys ih =>
    intro pos ids hids hndp hsubp hndn hsubn hdisj
    have hy : y.1 ∈ ids := hsubn y.1 (by simp)
    obtain ⟨l1, l2, rfl⟩ := List.append_of_mem hy
    have hmid := List.nodup_middle.mp hids
    rw [List.nodup_cons] at hmid
    simp only [List.map_cons, List.nodup_cons] at hndn
    have hcongr : ∀ pid ∈ l1 ++ l2,
        φ (finalOf pos (y :: ys) pid) = φ (finalOf pos ys pid) := by
      intro pid hpid
      have hne : pid ≠ y.1 := by
        intro hcontra
        apply hmid.1
        rw [← hcontra]
        exact hpid
      rw [finalOf_cons, if_neg hne]
    have hself : φ (finalOf pos (y :: ys) y.1) = φ (-y.2) := by
      rw [finalOf_cons, if_pos rfl]
    have hih : ((l1 ++ l2).map (fun pid => φ (finalOf pos ys pid))).sum
        = (pos.map (fun x => φ x.2)).sum + (ys.map (fun x => φ (-x.2))).sum := by
      apply ih pos (l1 ++ l2) hmid.2 hndp
      · intro k hkmem
        have hk1 : k ∈ l1 ++ y.1 :: l2 := hsubp k hkmem
        have hkne : k ≠ y.1 := by
          intro hcontra
          exact (hdisj y.1 (by simp)) (hcontra ▸ hkmem)
        rcases List.mem_append.mp hk1 with h | h
        · exact List.mem_append.mpr (Or.inl h)
        · rcases List.mem_cons.mp h with h | h
          · exact absurd h hkne
          · exact List.mem_append.mpr (Or.inr h)
      · exact hndn.2
      · intro k hkmem
        have hk1 : k ∈ l1 ++ y.1 :: l2 := hsubn k (by simp [hkmem])
        have hkne : k ≠ y.1 := fun hcontra => hndn.1 (hcontra ▸ hkmem)
        rcases List.mem_append.mp hk1 with h | h
        · exact List.mem_append.mpr (Or.inl h)
        · rcases List.mem_cons.mp h with h | h
          · exact absurd h hkne
          · exact List.mem_append.mpr (Or.inr h)
      · intro k hkmem
        exact hdisj k (by simp [hkmem])
    calc ((l1 ++ y.1 :: l2).map (fun pid => φ (finalOf pos (y :: ys) pid))).sum
        = (l1.map (fun pid => φ (finalOf pos (y :: ys) pid))).sum + (φ (-y.2) +
          (l2.map (fun pid => φ (finalOf pos (y :: ys) pid))).sum) := by
          rw [List.map_append, List.sum_append, List.map_cons, List.sum_cons, hself]
      _ = (l1.map (fun pid => φ (finalOf pos ys pid))).sum + (φ (-y.2) +
          (l2.map (fun pid => φ (finalOf pos ys pid))).sum) := by
          rw [List.map_congr_left (fun pid hpid =>
              hcongr pid (List.mem_append.mpr (Or.inl hpid))),
            List.map_congr_left (fun pid hpid =>
              hcongr pid (List.mem_append.mpr (Or.inr hpid)))]
      _ = φ (-y.2) + ((l1 ++ l2).map (fun pid => φ (finalOf pos ys pid))).sum := by
          rw [List.map_append, List.sum_append]; ring
      _ = φ (-y.2) + ((pos.map (fun x => φ x.2)).sum + (ys.map (fun x => φ (-x.2))).sum) := by
          rw [hih]
      _ = (pos.map (fun x => φ x.2)).sum + (((y :: ys)).map (fun x => φ (-x.2))).sum := by
          rw [List.map_cons, List.sum_cons]; ring

/-! ### Whole-loop corollaries -/

theorem netLoop_ids (f : Nat) (s s' : NetState) (h : netLoop f s = some s') :
    s'.pos.map Prod.fst = s.pos.map Prod.fst ∧
    s'.neg.map Prod.fst = s.neg.map Prod.fst :=
  @netLoop_inv
    (fun u => u.pos.map Prod.fst = s.pos.map Prod.fst ∧
      u.neg.map Prod.fst = s.neg.map Prod.fst)
    (fun u hg hu => ⟨((netStep_map_fst u hg).1).trans hu.1,
      ((netStep_map_fst u hg).2).trans hu.2⟩)
    f s s' h ⟨rfl, rfl⟩

theorem netLoop_diff (f : Nat) (s s' : NetState) (h : netLoop f s = some s') :
    sumVals s'.pos - sumVals s'.neg = sumVals s.pos - sumVals s.neg :=
  @netLoop_inv
    (fun u => sumVals u.pos - sumVals u.neg = sumVals s.pos - sumVals s.neg)
    (fun u hg hu => by dsimp only; rw [netStep_diff u hg]; exact hu)
    f s s' h rfl

theorem netLoop_tot_le (f : Nat) (s s' : NetState) (h : netLoop f s = some s') :
    sumVals s'.pos + sumVals s'.neg ≤ sumVals s.pos + sumVals s.neg :=
  @netLoop_inv
    (fun u => sumVals u.pos + sumVals u.neg ≤ sumVals s.pos + sumVals s.neg)
    (fun u hg hu => le_trans (netStep_tot_le u hg) hu)
    f s s' h le_rfl

theorem netLoop_nonneg (f : Nat) (s s' : NetState) (h : netLoop f s = some s')
    (hp : ∀ x ∈ s.pos, 0 ≤ x.2) (hn : ∀ x ∈ s.neg, 0 ≤ x.2) :
    (∀ x ∈ s'.pos, 0 ≤ x.2) ∧ (∀ x ∈ s'.neg, 0 ≤ x.2) :=
  @netLoop_inv
    (fun u => (∀ x ∈ u.pos, 0 ≤ x.2) ∧ (∀ x ∈ u.neg, 0 ≤ x.2))
    (fun u hg hu => netStep_nonneg u hg hu.1 hu.2)
    f s s' h ⟨hp, hn⟩

theorem netLoop_prefix (f : Nat) (s s' : NetState) (h : netLoop f s = some s')
    (hp : ∀ (k : Nat), k < s.i → ∀ x, s.pos[k]? = some x → x.2 < tol)
    (hn : ∀ (k : Nat), k < s.j → ∀ x, s.neg[k]? = some x → x.2 < tol) :
    (∀ (k : Nat), k < s'.i → ∀ x, s'.pos[k]? = some x → x.2 < tol) ∧
    (∀ (k : Nat), k < s'.j → ∀ x, s'.neg[k]? = some x → x.2 < tol) :=
  @netLoop_inv
    (fun u => (∀ (k : Nat), k < u.i → ∀ x, u.pos[k]? = some x → x.2 < tol) ∧
      (∀ (k : Nat), k < u.j → ∀ x, u.neg[k]? = some x → x.2 < tol))
    (fun u hg hu => netStep_prefix u hg hu.1 hu.2)
    f s s' h ⟨hp, hn⟩

/-! ### Facts about the initial lists -/

theorem internal_keys (bal : List (Nat × Bal)) :
    (internalOf bal).map Prod.fst = bal.map Prod.fst := by
  rw [internalOf, List.map_map]
  rfl

theorem mem_pos0_iff (bal : List (Nat × Bal)) (x : Nat × ℚ) :
    x ∈ pos0Of bal ↔ x ∈ internalOf bal ∧ tol < x.2 := by
  rw [pos0Of]
  constructor
  · intro h
    have := (sortDesc_perm _).mem_iff.mp h
    have h2 := List.mem_filter.mp this
    exact ⟨h2.1, of_decide_eq_true h2.2⟩
  · intro ⟨h1, h2⟩
    exact (sortDesc_perm _).mem_iff.mpr
      (List.mem_filter.mpr ⟨h1, decide_eq_true h2⟩)

theorem mem_neg0_iff (bal : List (Nat × Bal)) (x : Nat × ℚ) :
    x ∈ neg0Of bal ↔ (x.1, -x.2) ∈ internalOf bal ∧ tol < x.2 := by
  rw [neg0Of]
  constructor
  · intro h
    have := (sortDesc_perm _).mem_iff.mp h
    obtain ⟨y, hy, hxy⟩ := List.mem_map.mp this
    have h2 := List.mem_filter.mp hy
    have hx1 : x.1 = y.1 := by rw [← hxy]
    have hx2 : x.2 = -y.2 := by rw [← hxy]
    constructor
    · rw [hx1, hx2, neg_neg]
      exact h2.1
    · have : y.2 < -tol := of_decide_eq_true h2.2
      rw [hx2]
      linarith
  · intro ⟨h1, h2⟩
    apply (sortDesc_perm _).mem_iff.mpr
    apply List.mem_map.mpr
    refine ⟨(x.1, -x.2), List.mem_filter.mpr ⟨h1, decide_eq_true (by simp; linarith)⟩, by simp⟩

theorem pos0_keys_nodup (bal : List (Nat × Bal))
    (hnd : (bal.map Prod.fst).Nodup) : ((pos0Of bal).map Prod.fst).Nodup := by
  have h1 : ((internalOf bal).map Prod.fst).Nodup := by
    rw [internal_keys]; exact hnd
  have h2 : (((internalOf bal).filter isPos).map Prod.fst).Nodup :=
    h1.sublist ((List.filter_sublist _).map Prod.fst)
  exact ((sortDesc_perm _).map Prod.fst).nodup_iff.mpr h2

theorem neg0_keys_nodup (bal : List (Nat × Bal))
    (hnd : (bal.map Prod.fst).Nodup) : ((neg0Of bal).map Prod.fst).Nodup := by
  have h1 : ((internalOf bal).map Prod.fst).Nodup := by
    rw [internal_keys]; exact hnd
  have h2 : (((internalOf bal).filter isNeg).map Prod.fst).Nodup :=
    h1.sublist ((List.filter_sublist _).map Prod.fst)
  have h3 : ((((internalOf bal).filter isNeg).map
      (fun x => (x.1, -x.2))).map Prod.fst).Nodup := by
    rw [List.map_map]
    exact h2
  exact ((sortDesc_perm _).map Prod.fst).nodup_iff.mpr h3

theorem pos0_keys_sub (bal : List (Nat × Bal)) :
    ∀ k ∈ (pos0Of bal).map Prod.fst, k ∈ bal.map Prod.fst := by
  intro k hk
  obtain ⟨x, hx, hxk⟩ := List.mem_map.mp hk
  have := ((mem_pos0_iff bal x).mp hx).1
  rw [← internal_keys, ← hxk]
  exact List.mem_map.mpr ⟨x, this, rfl⟩

theorem neg0_keys_sub (bal : List (Nat × Bal)) :
    ∀ k ∈ (neg0Of bal).map Prod.fst, k ∈ bal.map Prod.fst := by
  intro k hk
  obtain ⟨x, hx, hxk⟩ := List.mem_map.mp hk
  have := ((mem_neg0_iff bal x).mp hx).1
  rw [← internal_keys, ← hxk]
  exact List.mem_map.mpr ⟨(x.1, -x.2), this, rfl⟩

theorem pos0_neg0_disjoint (bal : List (Nat × Bal))
    (hnd : (bal.map Prod.fst).Nodup) :
    ∀ k ∈ (neg0Of bal).map Prod.fst, k ∉ (pos0Of bal).map Prod.fst := by
  intro k hkn hkp
  obtain ⟨x, hx, hxk⟩ := List.mem_map.mp hkn
  obtain ⟨y, hy, hyk⟩ := List.mem_map.mp hkp
  have hxm := (mem_neg0_iff bal x).mp hx
  have hym := (mem_pos0_iff bal y).mp hy
  have hik : ((internalOf bal).map Prod.fst).Nodup := by
    rw [internal_keys]; exact hnd
  have hkeq : (x.1, -x.2) ∈ internalOf bal := hxm.1
  have hkey : x.1 = y.1 := by rw [hxk, hyk]
  have := @key_unique Nat ℚ y.1 (-x.2) y.2 (internalOf bal) hik
    (by rw [← hkey]; exact hkeq) (by rw [← (show (y.1, y.2) = y from rfl)] at hym; exact hym.1)
  have h1 : tol < x.2 := hxm.2
  have h2 : tol < y.2 := hym.2
  have h0 : 0 < tol := tol_pos
  rw [← this] at h2
  linarith

/-! ### Splitting the internal sums -/

theorem sum_split3 {α : Type} (f : α → ℚ) (p q : α → Bool)
    (hpq : ∀ x, p x = true → q x = false) (l : List α) :
    (l.map f).sum = ((l.filter p).map f).sum + ((l.filter q).map f).sum
      + ((l.filter (fun x => !p x && !q x)).map f).sum := by
  induction l with
  | nil => simp
  | cons x xs ih =>
    cases hp : p x with
    | true =>
      have hq := hpq x hp
      simp [List.filter_cons, hp, hq, ih]
      ring
    | false =>
      cases hq : q x with
      | true =>
        simp [List.filter_cons, hp, hq, ih]
        ring
      | false =>
        simp [List.filter_cons, hp, hq, ih]
        ring

theorem abs_sumVals_le (l : List (Nat × ℚ)) (b : ℚ) (hb : 0 ≤ b)
    (h : ∀ x ∈ l, |x.2| ≤ b) : |sumVals l| ≤ l.length * b := by
  induction l with
  | nil => simp [sumVals]
  | cons x xs ih =>
    have h1 : |x.2| ≤ b := h x (by simp)
    have h2 : |sumVals xs| ≤ xs.length * b := ih (fun y hy => h y (by simp [hy]))
    have h3 : |sumVals (x :: xs)| ≤ |x.2| + |sumVals xs| := by
      simp only [sumVals, List.map_cons, List.sum_cons]
      exact abs_add _ _
    have : (((x :: xs).length : ℚ)) * b = b + xs.length * b := by
      simp [List.length_cons]
      ring
    rw [this]
    linarith

/-- Unfolding a successful run of apply_bilateral_netting. -/
theorem netting_spec (bal : List (Nat × Bal)) (out : List (Nat × ℚ) × NettingStats)
    (h : apply_bilateral_netting bal = some out) :
    ∃ s : NetState,
      netLoop ((pos0Of bal).length + (neg0Of bal).length + 1) (initState bal) = some s ∧
      out.1 = (internalOf bal).map (fun x => (x.1, finalOf s.pos s.neg x.1)) := by
  rw [apply_bilateral_netting] at h
  cases hloop : netLoop ((pos0Of bal).length + (neg0Of bal).length + 1) (initState bal) with
  | none => rw [hloop] at h; exact absurd h (by simp)
  | some s =>
    rw [hloop] at h
    refine ⟨s, rfl, ?_⟩
    injection h with h
    rw [← h]

/-! ### Packaging a successful netting run -/

theorem netting_run (bal : List (Nat × Bal)) (out : List (Nat × ℚ) × NettingStats)
    (hnd : (bal.map Prod.fst).Nodup)
    (h : apply_bilateral_netting bal = some out) :
    ∃ s : NetState,
      netLoop ((pos0Of bal).length + (neg0Of bal).length + 1) (initState bal) = some s ∧
      out.1 = (internalOf bal).map (fun x => (x.1, finalOf s.pos s.neg x.1)) ∧
      s.pos.map Prod.fst = (pos0Of bal).map Prod.fst ∧
      s.neg.map Prod.fst = (neg0Of bal).map Prod.fst ∧
      (∀ x ∈ s.pos, 0 ≤ x.2) ∧ (∀ x ∈ s.neg, 0 ≤ x.2) ∧
      (∀ φ : ℚ → ℚ, φ 0 = 0 →
        (out.1.map (fun x => φ x.2)).sum =
          (s.pos.map (fun x => φ x.2)).sum + (s.neg.map (fun x => φ (-x.2))).sum) := by
  obtain ⟨s, hloop, hfin⟩ := netting_spec bal out h
  have hids := netLoop_ids _ _ _ hloop
  have hpk : s.pos.map Prod.fst = (pos0Of bal).map Prod.fst := hids.1
  have hnk : s.neg.map Prod.fst = (neg0Of bal).map Prod.fst := hids.2
  have hnonneg := netLoop_nonneg _ _ _ hloop
    (fun x hx => le_of_lt (lt_trans tol_pos ((mem_pos0_iff bal x).mp hx).2))
    (fun x hx => le_of_lt (lt_trans tol_pos ((mem_neg0_iff bal x).mp hx).2))
  refine ⟨s, hloop, hfin, hpk, hnk, hnonneg.1, hnonneg.2, ?_⟩
  intro φ hφ
  have hmap : out.1.map (fun x => φ x.2)
      = (bal.map Prod.fst).map (fun pid => φ (finalOf s.pos s.neg pid)) := by
    rw [hfin, internalOf, List.map_map, List.map_map, List.map_map]
    rfl
  rw [hmap]
  apply sum_finalOf φ hφ s.neg s.pos (bal.map Prod.fst) hnd
  · rw [hpk]; exact pos0_keys_nodup bal hnd
  · rw [hpk]; exact pos0_keys_sub bal
  · rw [hnk]; exact neg0_keys_nodup bal hnd
  · rw [hnk]; exact neg0_keys_sub bal
  · rw [hpk, hnk]; exact pos0_neg0_disjoint bal hnd

/-! ### Claim C1: conservation of value -/

/-- C1: for every input balance map (with distinct participant ids, as dict
keys are) on which the netting loop terminates, the sum of the final net
amounts returned by apply_bilateral_netting equals the sum of all credits
minus the sum of all debits, up to the rounding tolerance n * 1e-9 coming
from the participants whose internal net is within the 1e-9 tolerance and
is therefore zeroed out.  Greedy matching itself transfers value exactly,
never creating or destroying it. -/
theorem C1_netting_conservation (bal : List (Nat × Bal))
    (out : List (Nat × ℚ) × NettingStats)
    (hnd : (bal.map Prod.fst).Nodup)
    (h : apply_bilateral_netting bal = some out) :
    |(out.1.map (fun x => x.2)).sum -
        ((bal.map (fun x => x.2.credit)).sum - (bal.map (fun x => x.2.debit)).sum)|
      ≤ bal.length * tol := by
  obtain ⟨s, hloop, hfin, hpk, hnk, hpnn, hnnn, hsum⟩ := netting_run bal out hnd h
  have h1 : (out.1.map (fun x => x.2)).sum = sumVals s.pos - sumVals s.neg := by
    have := hsum (fun v => v) rfl
    have hneg : (s.neg.map (fun x => -x.2)).sum = -(s.neg.map (fun x => x.2)).sum :=
      sum_map_negq (fun x => x.2) s.neg
    rw [this]
    rw [show (s.neg.map fun x => -x.2)
        = (s.neg.map fun x => (fun v : ℚ => v) (-x.2)) from rfl] at hneg
    rw [hneg, sumVals, sumVals]
    ring
  have h2 : sumVals s.pos - sumVals s.neg
      = sumVals (pos0Of bal) - sumVals (neg0Of bal) := netLoop_diff _ _ _ hloop
  have h3 : sumVals (pos0Of bal) = sumVals ((internalOf bal).filter isPos) := by
    rw [sumVals, sumVals]
    exact ((sortDesc_perm _).map (fun x => x.2)).sum_eq
  have h4 : sumVals (neg0Of bal) = -sumVals ((internalOf bal).filter isNeg) := by
    rw [sumVals, sumVals]
    have hperm := ((sortDesc_perm (((internalOf bal).filter isNeg).map
      (fun x => (x.1, -x.2)))).map (fun x => x.2)).sum_eq
    rw [neg0Of, hperm, List.map_map]
    exact sum_map_negq (fun x : Nat × ℚ => x.2) _
  have hpq : ∀ x : Nat × ℚ, isPos x = true → isNeg x = false := by
    intro x hx
    have h5 : tol < x.2 := of_decide_eq_true hx
    have h6 : 0 < tol := tol_pos
    exact decide_eq_false (by intro hcon; linarith)
  have hsplit := sum_split3 (fun x : Nat × ℚ => x.2) isPos isNeg hpq (internalOf bal)
  have h6 : ((internalOf bal).map (fun x => x.2)).sum
      = (bal.map (fun x => x.2.credit)).sum - (bal.map (fun x => x.2.debit)).sum := by
    rw [internalOf, List.map_map]
    exact sum_map_subq (fun x => x.2.credit) (fun x => x.2.debit) bal
  have hmidb : ∀ x ∈ (internalOf bal).filter (fun x => !isPos x && !isNeg x),
      |x.2| ≤ tol := by
    intro x hx
    have := (List.mem_filter.mp hx).2
    rw [Bool.and_eq_true, Bool.not_eq_true', Bool.not_eq_true'] at this
    have hp : ¬ tol < x.2 := of_decide_eq_false this.1
    have hq : ¬ x.2 < -tol := of_decide_eq_false this.2
    exact abs_le.mpr ⟨le_of_not_lt hq, le_of_not_lt hp⟩
  have hmid : |sumVals ((internalOf bal).filter (fun x => !isPos x && !isNeg x))|
      ≤ ((internalOf bal).filter (fun x => !isPos x && !isNeg x)).length * tol :=
    abs_sumVals_le _ tol (le_of_lt tol_pos) hmidb
  have hlen : (((internalOf bal).filter (fun x => !isPos x && !isNeg x)).length : ℚ) * tol
      ≤ bal.length * tol := by
    apply mul_le_mul_of_nonneg_right _ (le_of_lt tol_pos)
    have : ((internalOf bal).filter (fun x => !isPos x && !isNeg x)).length
        ≤ bal.length := by
      calc ((internalOf bal).filter (fun x => !isPos x && !isNeg x)).length
          ≤ (internalOf bal).length := List.length_filter_le _ _
        _ = bal.length := by rw [internalOf, List.length_map]
    exact_mod_cast this
  have key : (out.1.map (fun x => x.2)).sum -
      ((bal.map (fun x => x.2.credit)).sum - (bal.map (fun x => x.2.debit)).sum)
      = -sumVals ((internalOf bal).filter (fun x => !isPos x && !isNeg x)) := by
    rw [h1, h2, h3, h4, ← h6]
    rw [show ((internalOf bal).map (fun x => x.2)).sum = sumVals (internalOf bal) from rfl]
      at hsplit ⊢
    rw [show (((internalOf bal).filter isPos).map (fun x => x.2)).sum
      = sumVals ((internalOf bal).filter isPos) from rfl] at hsplit
    rw [show (((internalOf bal).filter isNeg).map (fun x => x.2)).sum
      = sumVals ((internalOf bal).filter isNeg) from rfl] at hsplit
    rw [show (((internalOf bal).filter (fun x => !isPos x && !isNeg x)).map
      (fun x => x.2)).sum
      = sumVals ((internalOf bal).filter (fun x => !isPos x && !isNeg x)) from rfl]
      at hsplit
    rw [hsplit]
    ring
  rw [key, abs_neg]
  exact le_trans hmid hlen

section

attribute [local semireducible] Rat.sub Rat.add Rat.mul Rat.inv

/-- Concrete two-participant run used by the C1 witness. -/
def c1Bal : List (Nat × Bal) := [(1, ⟨5, 0⟩), (2, ⟨0, 3⟩)]

/-- Output of the C1 witness run (the loop terminates on this input). -/
def c1Out : List (Nat × ℚ) × NettingStats :=
  (apply_bilateral_netting c1Bal).getD ([], ⟨0, 0, 0, 0, 0, []⟩)

theorem C1_netting_conservation_witness :
    (c1Bal.map Prod.fst).Nodup ∧
    apply_bilateral_netting c1Bal = some c1Out ∧
    |(c1Out.1.map (fun x => x.2)).sum -
        ((c1Bal.map (fun x => x.2.credit)).sum - (c1Bal.map (fun x => x.2.debit)).sum)|
      ≤ c1Bal.length * tol :=
  ⟨by decide, by decide, C1_netting_conservation c1Bal c1Out (by decide) (by decide)⟩

end

/-! ### Claim C9: netting reduces exposure -/

/-- C9: for every input balance map (distinct ids) on which the loop
terminates, sum(|final_net|) is at most sum(|credit| + |debit|), and
equality forces that no participant with net above the tolerance coexists
with one below the negative tolerance (no two participants can offset). -/
theorem C9_netting_reduces_exposure (bal : List (Nat × Bal))
    (out : List (Nat × ℚ) × NettingStats)
    (hnd : (bal.map Prod.fst).Nodup)
    (h : apply_bilateral_netting bal = some out) :
    (out.1.map (fun x => |x.2|)).sum
        ≤ (bal.map (fun x => |x.2.credit| + |x.2.debit|)).sum ∧
    ((out.1.map (fun x => |x.2|)).sum
        = (bal.map (fun x => |x.2.credit| + |x.2.debit|)).sum →
      ¬(bal.any (fun x => decide (tol < x.2.credit - x.2.debit)) = true ∧
        bal.any (fun x => decide (x.2.credit - x.2.debit < -tol)) = true)) := by
  obtain ⟨s, hloop, hfin, hpk, hnk, hpnn, hnnn, hsum⟩ := netting_run bal out hnd h
  have hA : (out.1.map (fun x => |x.2|)).sum = sumVals s.pos + sumVals s.neg := by
    have hthis := hsum (fun v => |v|) abs_zero
    have hposeq : (s.pos.map (fun x => |x.2|)).sum = sumVals s.pos := by
      have hc : s.pos.map (fun x => |x.2|) = s.pos.map (fun x : Nat × ℚ => x.2) :=
        List.map_congr_left (fun x hx => abs_of_nonneg (hpnn x hx))
      rw [hc]
      rfl
    have hnegeq : (s.neg.map (fun x => |(-x.2)|)).sum = sumVals s.neg := by
      have hc : s.neg.map (fun x => |(-x.2)|) = s.neg.map (fun x : Nat × ℚ => x.2) :=
        List.map_congr_left (fun x hx => by
          rw [abs_neg]; exact abs_of_nonneg (hnnn x hx))
      rw [hc]
      rfl
    calc (out.1.map (fun x => |x.2|)).sum
        = (s.pos.map (fun x => |x.2|)).sum + (s.neg.map (fun x => |(-x.2)|)).sum := hthis
      _ = sumVals s.pos + sumVals s.neg := by rw [hposeq, hnegeq]
  have hB : sumVals s.pos + sumVals s.neg
      ≤ sumVals (pos0Of bal) + sumVals (neg0Of bal) := by
    have hb0 := netLoop_tot_le _ _ _ hloop
    exact hb0
  have h3 : sumVals (pos0Of bal) = sumVals ((internalOf bal).filter isPos) := by
    rw [sumVals, sumVals]
    exact ((sortDesc_perm _).map (fun x => x.2)).sum_eq
  have h4 : sumVals (neg0Of bal) = -sumVals ((internalOf bal).filter isNeg) := by
    rw [sumVals, sumVals]
    have hperm := ((sortDesc_perm (((internalOf bal).filter isNeg).map
      (fun x => (x.1, -x.2)))).map (fun x => x.2)).sum_eq
    rw [neg0Of, hperm, List.map_map]
    exact sum_map_negq (fun x : Nat × ℚ => x.2) _
  have hD : (((internalOf bal).filter isPos).map (fun x => |x.2|)).sum
      = sumVals ((internalOf bal).filter isPos) := by
    rw [sumVals]
    apply congrArg
    apply List.map_congr_left
    intro x hx
    have := of_decide_eq_true (List.mem_filter.mp hx).2
    exact abs_of_pos (lt_trans tol_pos this)
  have hE : (((internalOf bal).filter isNeg).map (fun x => |x.2|)).sum
      = -sumVals ((internalOf bal).filter isNeg) := by
    have h1 : (((internalOf bal).filter isNeg).map (fun x => |x.2|)).sum
        = (((internalOf bal).filter isNeg).map (fun x => -x.2)).sum := by
      apply congrArg
      apply List.map_congr_left
      intro x hx
      have := of_decide_eq_true (List.mem_filter.mp hx).2
      have h0 : 0 < tol := tol_pos
      exact abs_of_neg (by linarith)
    rw [h1]
    exact sum_map_negq (fun x : Nat × ℚ => x.2) _
  have hpq : ∀ x : Nat × ℚ, isPos x = true → isNeg x = false := by
    intro x hx
    have h5 : tol < x.2 := of_decide_eq_true hx
    have h6 : 0 < tol := tol_pos
    exact decide_eq_false (by intro hcon; linarith)
  have hsplit := sum_split3 (fun x : Nat × ℚ => |x.2|) isPos isNeg hpq (internalOf bal)
  have hmid0 : 0 ≤ (((internalOf bal).filter (fun x => !isPos x && !isNeg x)).map
      (fun x => |x.2|)).sum := by
    apply List.sum_nonneg
    intro a ha
    obtain ⟨x, _, hxa⟩ := List.mem_map.mp ha
    rw [← hxa]
    exact abs_nonneg _
  have hF : ((internalOf bal).map (fun x => |x.2|)).sum
      ≤ (bal.map (fun x => |x.2.credit| + |x.2.debit|)).sum := by
    rw [internalOf, List.map_map]
    apply List.sum_le_sum
    intro x _
    exact abs_sub _ _
  constructor
  · rw [hA]
    calc sumVals s.pos + sumVals s.neg
        ≤ sumVals (pos0Of bal) + sumVals (neg0Of bal) := hB
      _ = (((internalOf bal).filter isPos).map (fun x => |x.2|)).sum
          + (((internalOf bal).filter isNeg).map (fun x => |x.2|)).sum := by
          rw [h3, h4, hD, hE]
      _ ≤ ((internalOf bal).map (fun x => |x.2|)).sum := by
          rw [hsplit]; linarith
      _ ≤ (bal.map (fun x => |x.2.credit| + |x.2.debit|)).sum := hF
  · intro heq ⟨hany1, hany2⟩
    obtain ⟨x, hxmem, hxval⟩ := List.any_eq_true.mp hany1
    obtain ⟨y, hymem, hyval⟩ := List.any_eq_true.mp hany2
    have hxv : tol < x.2.credit - x.2.debit := of_decide_eq_true hxval
    have hyv : y.2.credit - y.2.debit < -tol := of_decide_eq_true hyval
    have hxp : (x.1, x.2.credit - x.2.debit) ∈ pos0Of bal := by
      apply (mem_pos0_iff bal _).mpr
      exact ⟨List.mem_map.mpr ⟨x, hxmem, rfl⟩, hxv⟩
    have hyn : (y.1, -(y.2.credit - y.2.debit)) ∈ neg0Of bal := by
      apply (mem_neg0_iff bal _).mpr
      constructor
      · rw [neg_neg]
        exact List.mem_map.mpr ⟨y, hymem, rfl⟩
      · simp only
        linarith
    have hg : (initState bal).guard := by
      constructor
      · exact List.length_pos.mpr (List.ne_nil_of_mem hxp)
      · exact List.length_pos.mpr (List.ne_nil_of_mem hyn)
    rw [netLoop] at hloop
    rw [if_pos hg] at hloop
    have h0p : 0 < (initState bal).pos.length := hg.1
    have h0n : 0 < (initState bal).neg.length := hg.2
    have hc0 : (initState bal).pos[0] ∈ pos0Of bal := List.getElem_mem h0p
    have hd0 : (initState bal).neg[0] ∈ neg0Of bal := List.getElem_mem h0n
    have hct : tol < curT (initState bal) := by
      rw [curT, curC_eq_getElem _ h0p, curD_eq_getElem _ h0n]
      apply lt_min
      · exact ((mem_pos0_iff bal _).mp hc0).2
      · exact ((mem_neg0_iff bal _).mp hd0).2
    have hdrop := netStep_tot_drop (initState bal) hg hct
    have hle2 := netLoop_tot_le _ _ _ hloop
    have h0t : 0 < curT (initState bal) := lt_trans tol_pos hct
    have hinit : sumVals (initState bal).pos + sumVals (initState bal).neg
        = sumVals (pos0Of bal) + sumVals (neg0Of bal) := rfl
    have hchain : (out.1.map (fun x => |x.2|)).sum
        < sumVals (pos0Of bal) + sumVals (neg0Of bal) := by
      rw [hA]
      rw [hdrop, hinit] at hle2
      linarith
    have hup : sumVals (pos0Of bal) + sumVals (neg0Of bal)
        ≤ (bal.map (fun x => |x.2.credit| + |x.2.debit|)).sum := by
      calc sumVals (pos0Of bal) + sumVals (neg0Of bal)
          = (((internalOf bal).filter isPos).map (fun x => |x.2|)).sum
            + (((internalOf bal).filter isNeg).map (fun x => |x.2|)).sum := by
            rw [h3, h4, hD, hE]
        _ ≤ ((internalOf bal).map (fun x => |x.2|)).sum := by
            rw [hsplit]; linarith
        _ ≤ (bal.map (fun x => |x.2.credit| + |x.2.debit|)).sum := hF
    rw [heq] at hchain
    linarith

section

attribute [local semireducible] Rat.sub Rat.add Rat.mul Rat.inv

/-- Concrete input for the C9 witness. -/
def c9Bal : List (Nat × Bal) := [(1, ⟨4, 1⟩), (2, ⟨0, 2⟩)]

/-- Output of the C9 witness run. -/
def c9Out : List (Nat × ℚ) × NettingStats :=
  (apply_bilateral_netting c9Bal).getD ([], ⟨0, 0, 0, 0, 0, []⟩)

theorem C9_netting_reduces_exposure_witness :
    (c9Bal.map Prod.fst).Nodup ∧
    apply_bilateral_netting c9Bal = some c9Out ∧
    ((c9Out.1.map (fun x => |x.2|)).sum
        ≤ (c9Bal.map (fun x => |x.2.credit| + |x.2.debit|)).sum ∧
    ((c9Out.1.map (fun x => |x.2|)).sum
        = (c9Bal.map (fun x => |x.2.credit| + |x.2.debit|)).sum →
      ¬(c9Bal.any (fun x => decide (tol < x.2.credit - x.2.debit)) = true ∧
        c9Bal.any (fun x => decide (x.2.credit - x.2.debit < -tol)) = true))) :=
  ⟨by decide, by decide,
    C9_netting_reduces_exposure c9Bal c9Out (by decide) (by decide)⟩

end

/-! ### Claim C10: final balances are one-sided -/

/-- C10: when the matching loop finishes, the returned final balances are
one-sided: either every final balance is below the 1e-9 tolerance on the
credit side, or every final balance is above -1e-9 on the debit side,
because the loop only stops when one of the two sorted lists is fully
consumed and a cursor only moves past entries below the tolerance. -/
theorem C10_final_balances_one_sided (bal : List (Nat × Bal))
    (out : List (Nat × ℚ) × NettingStats)
    (hnd : (bal.map Prod.fst).Nodup)
    (h : apply_bilateral_netting bal = some out) :
    out.1.all (fun x => decide (x.2 < tol)) = true ∨
    out.1.all (fun x => decide (-tol < x.2)) = true := by
  obtain ⟨s, hloop, hfin, hpk, hnk, hpnn, hnnn, _⟩ := netting_run bal out hnd h
  have hpre := netLoop_prefix _ _ _ hloop
    (fun k hk => absurd hk (Nat.not_lt_zero k))
    (fun k hk => absurd hk (Nat.not_lt_zero k))
  have hng := netLoop_not_guard _ _ _ hloop
  rw [NetState.guard, not_and_or, not_lt, not_lt] at hng
  rcases hng with hng | hng
  · left
    rw [List.all_eq_true]
    intro x hx
    rw [hfin] at hx
    obtain ⟨y, _, hyx⟩ := List.mem_map.mp hx
    have hall : ∀ z ∈ s.pos, z.2 < tol := by
      intro z hz
      obtain ⟨k, hk⟩ := List.mem_iff_getElem?.mp hz
      have hklen : k < s.pos.length := by
        by_contra hcon
        rw [List.getElem?_eq_none (le_of_not_lt hcon)] at hk
        exact absurd hk (by simp)
      exact hpre.1 k (lt_of_lt_of_le hklen hng) z hk
    apply decide_eq_true
    rw [← hyx]
    simp only
    rw [finalOf]
    cases hlk : List.lookup y.1 s.neg with
    | some d =>
      have hd : 0 ≤ d := hnnn (y.1, d) (lookup_some_mem hlk)
      have h0 : 0 < tol := tol_pos
      simp only
      linarith
    | none =>
      cases hlp : List.lookup y.1 s.pos with
      | some c => exact hall (y.1, c) (lookup_some_mem hlp)
      | none => exact tol_pos
  · right
    rw [List.all_eq_true]
    intro x hx
    rw [hfin] at hx
    obtain ⟨y, _, hyx⟩ := List.mem_map.mp hx
    have hall : ∀ z ∈ s.neg, z.2 < tol := by
      intro z hz
      obtain ⟨k, hk⟩ := List.mem_iff_getElem?.mp hz
      have hklen : k < s.neg.length := by
        by_contra hcon
        rw [List.getElem?_eq_none (le_of_not_lt hcon)] at hk
        exact absurd hk (by simp)
      exact hpre.2 k (lt_of_lt_of_le hklen hng) z hk
    apply decide_eq_true
    rw [← hyx]
    simp only
    rw [finalOf]
    cases hlk : List.lookup y.1 s.neg with
    | some d =>
      have hd : d < tol := hall (y.1, d) (lookup_some_mem hlk)
      simp only
      linarith
    | none =>
      cases hlp : List.lookup y.1 s.pos with
      | some c =>
        have hc : 0 ≤ c := hpnn (y.1, c) (lookup_some_mem hlp)
        have h0 : 0 < tol := tol_pos
        linarith
      | none =>
        have h0 : 0 < tol := tol_pos
        simp only
        linarith

section

attribute [local semireducible] Rat.sub Rat.add Rat.mul Rat.inv

/-- Concrete input for the C10 witness. -/
def c10Bal : List (Nat × Bal) := [(1, ⟨2, 0⟩), (2, ⟨0, 5⟩), (3, ⟨1, 0⟩)]

/-- Output of the C10 witness run. -/
def c10Out : List (Nat × ℚ) × NettingStats :=
  (apply_bilateral_netting c10Bal).getD ([], ⟨0, 0, 0, 0, 0, []⟩)

theorem C10_final_balances_one_sided_witness :
    (c10Bal.map Prod.fst).Nodup ∧
    apply_bilateral_netting c10Bal = some c10Out ∧
    (c10Out.1.all (fun x => decide (x.2 < tol)) = true ∨
      c10Out.1.all (fun x => decide (-tol < x.2)) = true) :=
  ⟨by decide, by decide,
    C10_final_balances_one_sided c10Bal c10Out (by decide) (by decide)⟩

end

/-! ### Claim C4: the loop body, as the spec states it -/

/-- The property claim C4 asserts of every loop state: an unconditional
transfer of min(remaining credit, remaining debt) is recorded, both
remaining amounts are decremented by it, and a side is advanced exactly
when its remaining amount falls below the tolerance. -/
def C4ClaimAt (s : NetState) : Prop :=
  (netStep s).transfers = s.transfers ++ [((curD s).1, (curC s).1, curT s)] ∧
  ((netStep s).pos.getD s.i (0, 0)).2 = (curC s).2 - curT s ∧
  ((netStep s).neg.getD s.j (0, 0)).2 = (curD s).2 - curT s ∧
  ((netStep s).i = s.i + 1 ↔ ((netStep s).pos.getD s.i (0, 0)).2 < tol) ∧
  ((netStep s).j = s.j + 1 ↔ ((netStep s).neg.getD s.j (0, 0)).2 < tol)

section

attribute [local semireducible] Rat.sub Rat.add Rat.mul Rat.inv

/-- C4 counterexample: starting from the balance map
{1: credit 3e-9, 2: debit 2e-9, 3: debit 2e-9}, the first loop iteration
leaves the state pos = [(1, 1e-9)], neg = [(2, 0), (3, 2e-9)], i = 0,
j = 1.  In that guarded state min(remaining credit, remaining debt) is
exactly 1e-9, so the source's strict transfer_amount > 1e-9 test fails:
no transfer is recorded and nothing is decremented, contradicting the
claim (the state is in fact a fixed point of the loop body, so the
source loop never terminates there). -/
theorem C4_counterexample :
    netStep ⟨[(1, 3 * tol)], [(2, 2 * tol), (3, 2 * tol)], 0, 0, []⟩
      = ⟨[(1, tol)], [(2, 0), (3, 2 * tol)], 0, 1, [(2, 1, 2 * tol)]⟩ ∧
    (⟨[(1, tol)], [(2, 0), (3, 2 * tol)], 0, 1,
      [(2, 1, 2 * tol)]⟩ : NetState).guard ∧
    ¬ C4ClaimAt ⟨[(1, tol)], [(2, 0), (3, 2 * tol)], 0, 1, [(2, 1, 2 * tol)]⟩ := by
  refine ⟨by decide, by decide, ?_⟩
  intro hclaim
  exact absurd hclaim.1 (by decide)

end

/-- C4 (amended): in every guarded loop state, when the candidate
transfer min(remaining credit, remaining debt) strictly exceeds the 1e-9
tolerance, it is recorded and deducted from both sides and a cursor
advances exactly when the updated remaining amount is below the
tolerance; when the candidate transfer is at most the tolerance, nothing
is recorded or deducted and a cursor advances exactly when the current
remaining amount is below the tolerance. -/
theorem C4_step_characterization (s : NetState) (hg : s.guard) :
    (tol < curT s →
      (netStep s).transfers = s.transfers ++ [((curD s).1, (curC s).1, curT s)] ∧
      ((netStep s).pos.getD s.i (0, 0)).2 = (curC s).2 - curT s ∧
      ((netStep s).neg.getD s.j (0, 0)).2 = (curD s).2 - curT s ∧
      ((netStep s).i = s.i + 1 ↔ (curC s).2 - curT s < tol) ∧
      ((netStep s).j = s.j + 1 ↔ (curD s).2 - curT s < tol)) ∧
    (curT s ≤ tol →
      (netStep s).transfers = s.transfers ∧
      (netStep s).pos = s.pos ∧ (netStep s).neg = s.neg ∧
      ((netStep s).i = s.i + 1 ↔ (curC s).2 < tol) ∧
      ((netStep s).j = s.j + 1 ↔ (curD s).2 < tol)) := by
  have hpl : s.i < (s.pos.set s.i ((curC s).1, (curC s).2 - curT s)).length := by
    rw [List.length_set]
    exact hg.1
  have hnl : s.j < (s.neg.set s.j ((curD s).1, (curD s).2 - curT s)).length := by
    rw [List.length_set]
    exact hg.2
  constructor
  · intro ht
    have htr := transferOf_of_big s ht
    have hposval : ((netStep s).pos.getD s.i (0, 0)).2 = (curC s).2 - curT s := by
      rw [netStep, advanceOf_pos, htr]
      rw [List.getD_eq_getElem _ _ hpl]
      rw [List.getElem_set_self hpl]
    have hnegval : ((netStep s).neg.getD s.j (0, 0)).2 = (curD s).2 - curT s := by
      rw [netStep, advanceOf_neg, htr]
      rw [List.getD_eq_getElem _ _ hnl]
      rw [List.getElem_set_self hnl]
    have hcurc : (curC (transferOf s)).2 = (curC s).2 - curT s := by
      rw [curC_eq_getElem?, transferOf_i, htr]
      simp only
      rw [← List.getD_eq_getElem?_getD, List.getD_eq_getElem _ _ hpl,
        List.getElem_set_self hpl]
    have hcurd : (curD (transferOf s)).2 = (curD s).2 - curT s := by
      rw [curD_eq_getElem?, transferOf_j, htr]
      simp only
      rw [← List.getD_eq_getElem?_getD, List.getD_eq_getElem _ _ hnl,
        List.getElem_set_self hnl]
    refine ⟨?_, hposval, hnegval, ?_, ?_⟩
    · rw [netStep, advanceOf_transfers, htr]
    · rw [netStep_i, hcurc]
      by_cases hc : (curC s).2 - curT s < tol
      · rw [if_pos hc]
        exact ⟨fun _ => hc, fun _ => rfl⟩
      · rw [if_neg hc]
        exact ⟨fun hcon => absurd hcon (by omega), fun hcon => absurd hcon hc⟩
    · rw [netStep_j, hcurd]
      by_cases hc : (curD s).2 - curT s < tol
      · rw [if_pos hc]
        exact ⟨fun _ => hc, fun _ => rfl⟩
      · rw [if_neg hc]
        exact ⟨fun hcon => absurd hcon (by omega), fun hcon => absurd hcon hc⟩
  · intro ht
    have htr := transferOf_of_small s (not_lt_of_le ht)
    refine ⟨?_, ?_, ?_, ?_, ?_⟩
    · rw [netStep, advanceOf_transfers, htr]
    · rw [netStep, advanceOf_pos, htr]
    · rw [netStep, advanceOf_neg, htr]
    · rw [netStep_i, htr]
      by_cases hc : (curC s).2 < tol
      · rw [if_pos hc]
        exact ⟨fun _ => hc, fun _ => rfl⟩
      · rw [if_neg hc]
        exact ⟨fun hcon => absurd hcon (by omega), fun hcon => absurd hcon hc⟩
    · rw [netStep_j, htr]
      by_cases hc : (curD s).2 < tol
      · rw [if_pos hc]
        exact ⟨fun _ => hc, fun _ => rfl⟩
      · rw [if_neg hc]
        exact ⟨fun hcon => absurd hcon (by omega), fun hcon => absurd hcon hc⟩

section

attribute [local semireducible] Rat.sub Rat.add Rat.mul Rat.inv

/-- Concrete state for the C4 witness. -/
def c4State : NetState := ⟨[(1, 5)], [(2, 3)], 0, 0, []⟩

theorem C4_step_characterization_witness :
    c4State.guard ∧
    ((tol < curT c4State →
      (netStep c4State).transfers
        = c4State.transfers ++ [((curD c4State).1, (curC c4State).1, curT c4State)] ∧
      ((netStep c4State).pos.getD c4State.i (0, 0)).2
        = (curC c4State).2 - curT c4State ∧
      ((netStep c4State).neg.getD c4State.j (0, 0)).2
        = (curD c4State).2 - curT c4State ∧
      ((netStep c4State).i = c4State.i + 1 ↔ (curC c4State).2 - curT c4State < tol) ∧
      ((netStep c4State).j = c4State.j + 1 ↔ (curD c4State).2 - curT c4State < tol)) ∧
    (curT c4State ≤ tol →
      (netStep c4State).transfers = c4State.transfers ∧
      (netStep c4State).pos = c4State.pos ∧ (netStep c4State).neg = c4State.neg ∧
      ((netStep c4State).i = c4State.i + 1 ↔ (curC c4State).2 < tol) ∧
      ((netStep c4State).j = c4State.j + 1 ↔ (curD c4State).2 < tol))) :=
  ⟨by decide, C4_step_characterization c4State (by decide)⟩

end

/-! ### The settlement pipeline (settle.py, apply_policy_and_settle) -/

/-- Participant roles.  Modelled from the spec: the closed role set of
spec section 3, which matches the runtime enum installed by app/db.py
(ensure_min_schema); the checked-in app/models.py is a stale early
snapshot whose enum lacks several of these members and is inconsistent
with every caller. -/
inductive Role where
  | prosumer
  | consumer
  | landlord
  | tenant
  | operator
  | commercial
  | community_fee_collector
  | external_market
deriving DecidableEq

/-- Usage-event kinds.  Modelled from the spec: the closed event-kind set
of spec section 3, which matches app/db.py's runtime enum; app/models.py
is a stale snapshot without grid_feed although settle.py references
EventType.GRID_FEED. -/
inductive EventKind where
  | generation
  | consumption
  | grid_feed
  | base_fee
  | battery_charge
  | battery_discharge
  | production
  | vpp_sale
deriving DecidableEq

structure Participant where
  id : Nat
  name : String
  role : Role
deriving DecidableEq

/-- UsageEvent as read by settle.py: participant_id, the participant
relationship (None when the foreign key does not resolve), event_type and
quantity.  Unit, timestamp and meta are not read by apply_policy_and_settle
and are omitted. -/
structure UsageEvent where
  participant_id : Nat
  participant : Option Participant
  event_type : EventKind
  quantity : ℚ
deriving DecidableEq

/-- policy_body: a JSON object of numeric parameters. -/
def Policy : Type := List (String × ℚ)

/-- float(policy_body.get(key, default)). -/
def polGet (pol : Policy) (k : String) (d : ℚ) : ℚ :=
  (List.lookup k pol).getD d

/-- Generic Python-dict update keyed by participant id: replace the value
of an existing key in place, or append a fresh entry (dict insertion
order).  Instantiated for the aggregation defaultdict, the participants
dict and the result defaultdict of settle.py. -/
def dictUpd {β : Type} (d : List (Nat × β)) (pid : Nat) (dflt : β) (f : β → β) :
    List (Nat × β) :=
  match d with
  | [] => [(pid, f dflt)]
  | (k, v) :: rest =>
    if k = pid then (k, f v) :: rest else (k, v) :: dictUpd rest pid dflt f

theorem dictUpd_keys {β : Type} (d : List (Nat × β)) (pid : Nat) (dflt : β)
    (f : β → β) :
    (dictUpd d pid dflt f).map Prod.fst =
      if pid ∈ d.map Prod.fst then d.map Prod.fst else d.map Prod.fst ++ [pid] := by
  induction d with
  | nil => simp [dictUpd]
  | cons x xs ih =>
    rw [dictUpd]
    by_cases hk : x.1 = pid
    · rw [if_pos hk]
      have : pid ∈ (x :: xs).map Prod.fst := by
        rw [List.map_cons, hk]
        simp
      rw [if_pos this]
      rfl
    · rw [if_neg hk]
      rw [List.map_cons, List.map_cons, ih]
      by_cases hm : pid ∈ xs.map Prod.fst
      · rw [if_pos hm, if_pos (by simp [hm])]
      · rw [if_neg hm, if_neg (by
          intro hcon
          rcases List.mem_cons.mp hcon with hcon | hcon
          · exact hk hcon.symm
          · exact hm hcon)]
        rfl

theorem dictUpd_keys_nodup {β : Type} (d : List (Nat × β)) (pid : Nat) (dflt : β)
    (f : β → β) (hnd : (d.map Prod.fst).Nodup) :
    ((dictUpd d pid dflt f).map Prod.fst).Nodup := by
  rw [dictUpd_keys]
  by_cases hm : pid ∈ d.map Prod.fst
  · rw [if_pos hm]; exact hnd
  · rw [if_neg hm]
    apply List.Nodup.append hnd (List.nodup_singleton pid)
    intro a ha hb
    rw [List.mem_singleton] at hb
    exact hm (hb ▸ ha)

theorem dictUpd_lookup_self {β : Type} (d : List (Nat × β)) (pid : Nat) (dflt : β)
    (f : β → β) :
    List.lookup pid (dictUpd d pid dflt f)
      = some (f ((List.lookup pid d).getD dflt)) := by
  induction d with
  | nil =>
    rw [dictUpd]
    simp [List.lookup]
  | cons x xs ih =>
    rw [dictUpd]
    by_cases hk : x.1 = pid
    · rw [if_pos hk]
      have hbeq : (pid == x.1) = true := by simp [hk]
      simp [List.lookup, hbeq]
    · rw [if_neg hk]
      have hbeq : (pid == x.1) = false := by
        simp only [beq_eq_false_iff_ne, ne_eq]
        intro hcon
        exact hk hcon.symm
      simp only [List.lookup, hbeq]
      exact ih

theorem dictUpd_lookup_ne {β : Type} (d : List (Nat × β)) (pid q : Nat) (dflt : β)
    (f : β → β) (hq : q ≠ pid) :
    List.lookup q (dictUpd d pid dflt f) = List.lookup q d := by
  induction d with
  | nil =>
    rw [dictUpd]
    have hbeq : (q == pid) = false := by simp [hq]
    simp [List.lookup, hbeq]
  | cons x xs ih =>
    rw [dictUpd]
    by_cases hk : x.1 = pid
    · rw [if_pos hk]
      have hbeq : (q == x.1) = false := by simp [hk ▸ hq]
      simp [List.lookup, hbeq]
    · rw [if_neg hk]
      cases hbeq : (q == x.1) with
      | true => simp [List.lookup, hbeq]
      | false => simp only [List.lookup, hbeq]; exact ih

/-- The kWh/EUR buckets of the aggregation defaultdict
(settle.py lines 93-104). -/
structure AggVals where
  generation_kwh : ℚ
  grid_feed_kwh : ℚ
  consumption_kwh : ℚ
  base_fee_eur : ℚ
deriving DecidableEq

def AggVals.zero : AggVals := ⟨0, 0, 0, 0⟩

/-- The four event kinds that the aggregation of settle.py lines 97-104
actually accumulates; every other kind falls through the if/elif chain. -/
def recognizedKind (k : EventKind) : Bool :=
  match k with
  | .generation => true
  | .grid_feed => true
  | .consumption => true
  | .base_fee => true
  | _ => false

/-- One event's effect on the aggregation dict (settle.py lines 97-104):
an if/elif chain with no else branch. -/
def aggStep (agg : List (Nat × AggVals)) (ev : UsageEvent) : List (Nat × AggVals) :=
  match ev.event_type with
  | .generation => dictUpd agg ev.participant_id AggVals.zero
      (fun a => { a with generation_kwh := a.generation_kwh + ev.quantity })
  | .grid_feed => dictUpd agg ev.participant_id AggVals.zero
      (fun a => { a with grid_feed_kwh := a.grid_feed_kwh + ev.quantity })
  | .consumption => dictUpd agg ev.participant_id AggVals.zero
      (fun a => { a with consumption_kwh := a.consumption_kwh + ev.quantity })
  | .base_fee => dictUpd agg ev.participant_id AggVals.zero
      (fun a => { a with base_fee_eur := a.base_fee_eur + ev.quantity })
  | _ => agg

/-- The aggregation dict built by the event loop of settle.py
lines 93-104. -/
def aggOf (events : List UsageEvent) : List (Nat × AggVals) :=
  events.foldl aggStep []

/-- The participants dict built by the same loop (line 96):
participants dictionary entry is overwritten by every event of the
participant, last write wins. -/
def participantsOf (events : List UsageEvent) : List (Nat × Option Participant) :=
  events.foldl
    (fun ps ev => dictUpd ps ev.participant_id none (fun _ => ev.participant)) []

theorem aggStep_unrecognized (agg : List (Nat × AggVals)) (ev : UsageEvent)
    (h : recognizedKind ev.event_type = false) : aggStep agg ev = agg := by
  rw [aggStep]
  cases hk : ev.event_type <;> rw [hk] at h <;> first
    | rfl
    | simp [recognizedKind] at h

/-- Settlement batch as persisted by settle.py line 209 (use_case tag;
the id is assigned by db.flush, modelled by the running counter of the
database state). -/
structure SettlementBatch where
  id : Nat
  use_case : String
deriving DecidableEq

/-- Settlement line as persisted by settle.py lines 216-221.  settle.py
never assigns proof_hash, so the column keeps the schema default of the
empty string installed by app/db.py (ensure_min_schema). -/
structure SettlementLine where
  batch_id : Nat
  participant_id : Nat
  amount_eur : ℚ
  description : String
  proof_hash : String
deriving DecidableEq

/-- The database state visible to settle.py and audit.py. -/
structure DB where
  participants : List Participant
  batches : List SettlementBatch
  lines : List SettlementLine
  nextBatchId : Nat
deriving DecidableEq

/-- Python round(x, 2) on the exact value: round half to even at two
decimal places. -/
def roundHalfEven (x : ℚ) : ℤ :=
  if x - (⌊x⌋ : ℚ) < mkRat 1 2 then ⌊x⌋
  else if x - (⌊x⌋ : ℚ) > mkRat 1 2 then ⌊x⌋ + 1
  else if ⌊x⌋ % 2 = 0 then ⌊x⌋ else ⌊x⌋ + 1

def round2 (x : ℚ) : ℚ := (roundHalfEven (x * 100) : ℚ) * mkRat 1 100

/-- One entry of the first energy_community loop (settle.py
lines 115-135): prosumers earn generation and grid-feed revenue and owe
the community fee plus their own consumption, consumers owe their
consumption; reading the role of an unresolved participant raises. -/
def ecStep (sell buy fee grid : ℚ) (ps : List (Nat × Option Participant))
    (res : List (Nat × Bal)) (x : Nat × AggVals) : Except String (List (Nat × Bal)) :=
  match List.lookup x.1 ps with
  | some (some p) =>
    match p.role with
    | .prosumer =>
      let generation_revenue := x.2.generation_kwh * sell
      let grid_feed_revenue := x.2.grid_feed_kwh * grid
      let community_fee := (generation_revenue + grid_feed_revenue) * fee
      let consumption_cost := x.2.consumption_kwh * buy
      .ok (dictUpd res x.1 ⟨0, 0⟩ (fun b =>
        { b with credit := b.credit + (generation_revenue + grid_feed_revenue),
                 debit := b.debit + (community_fee + consumption_cost) }))
    | .consumer =>
      .ok (dictUpd res x.1 ⟨0, 0⟩ (fun b =>
        { b with debit := b.debit + x.2.consumption_kwh * buy }))
    | _ => .ok res
  | some none => .error "AttributeError: NoneType object has no attribute role"
  | none => .error "KeyError"

/-- One entry of the community-fee accumulation loop (settle.py
lines 142-148). -/
def ecFeeStep (sell grid fee : ℚ) (ps : List (Nat × Option Participant))
    (acc : ℚ) (x : Nat × AggVals) : Except String ℚ :=
  match List.lookup x.1 ps with
  | some (some p) =>
    if p.role = Role.prosumer then
      .ok (acc + (x.2.generation_kwh * sell + x.2.grid_feed_kwh * grid) * fee)
    else .ok acc
  | some none => .error "AttributeError: NoneType object has no attribute role"
  | none => .error "KeyError"

/-- The energy_community branch of settle.py lines 109-149. -/
def ecFlows (db : DB) (pol : Policy) (ps : List (Nat × Option Participant))
    (agg : List (Nat × AggVals)) : Except String (List (Nat × Bal)) :=
  let sell := polGet pol "prosumer_sell_price" (mkRat 15 100)
  let buy := polGet pol "consumer_buy_price" (mkRat 12 100)
  let fee := polGet pol "community_fee_rate" (mkRat 2 100)
  let grid := polGet pol "grid_feed_price" (mkRat 8 100)
  match agg.foldlM (ecStep sell buy fee grid ps) [] with
  | .error e => .error e
  | .ok res1 =>
    match db.participants.find? (fun p => p.role == Role.community_fee_collector) with
    | none => .ok res1
    | some collector =>
      match agg.foldlM (ecFeeStep sell grid fee ps) 0 with
      | .error e => .error e
      | .ok total_fee =>
        .ok (dictUpd res1 collector.id ⟨0, 0⟩ (fun b =>
          { b with credit := b.credit + total_fee }))

/-- One entry of the tenant loop of the mieterstrom branch (settle.py
lines 162-169): the base fee read from the aggregation falls back to the
policy default through Python falsiness when it is 0.0; the running second
component is total_tenant_payments. -/
def msTenantStep (tenant_price base_fee : ℚ) (ps : List (Nat × Option Participant))
    (st : List (Nat × Bal) × ℚ) (x : Nat × AggVals) :
    Except String (List (Nat × Bal) × ℚ) :=
  match List.lookup x.1 ps with
  | some (some p) =>
    if p.role = Role.tenant then
      let base := if x.2.base_fee_eur ≠ 0 then x.2.base_fee_eur else base_fee
      let cost := x.2.consumption_kwh * tenant_price + base
      .ok (dictUpd st.1 x.1 ⟨0, 0⟩ (fun b => { b with debit := b.debit + cost }),
        st.2 + cost)
    else .ok st
  | some none => .error "AttributeError: NoneType object has no attribute role"
  | none => .error "KeyError"

/-- One entry of the landlord/operator loop of the mieterstrom branch
(settle.py lines 172-190). -/
def msSecondStep (landlord_share operator_fee_rate grid_compensation ttp : ℚ)
    (ps : List (Nat × Option Participant)) (res : List (Nat × Bal))
    (x : Nat × AggVals) : Except String (List (Nat × Bal)) :=
  match List.lookup x.1 ps with
  | some (some p) =>
    match p.role with
    | .landlord =>
      let landlord_revenue := ttp * landlord_share
      let res1 := dictUpd res x.1 ⟨0, 0⟩ (fun b =>
        { b with credit := b.credit + landlord_revenue })
      if x.2.generation_kwh > 0 then
        .ok (dictUpd res1 x.1 ⟨0, 0⟩ (fun b =>
          { b with debit := b.debit + x.2.generation_kwh * grid_compensation }))
      else
        .ok (dictUpd res1 x.1 ⟨0, 0⟩ (fun b =>
          { b with debit := b.debit + grid_compensation }))
    | .operator =>
      .ok (dictUpd res x.1 ⟨0, 0⟩ (fun b =>
        { b with credit := b.credit + ttp * operator_fee_rate }))
    | _ => .ok res
  | some none => .error "AttributeError: NoneType object has no attribute role"
  | none => .error "KeyError"

/-- The mieterstrom branch of settle.py lines 151-190. -/
def msFlows (pol : Policy) (ps : List (Nat × Option Participant))
    (agg : List (Nat × AggVals)) : Except String (List (Nat × Bal)) :=
  let tenant_price := polGet pol "tenant_price_per_kwh" (mkRat 18 100)
  let landlord_share := polGet pol "landlord_revenue_share" (mkRat 60 100)
  let operator_fee_rate := polGet pol "operator_fee_rate" (mkRat 15 100)
  let grid_compensation := polGet pol "grid_compensation" (mkRat 8 100)
  let base_fee := polGet pol "base_fee_per_unit" 5
  match agg.foldlM (msTenantStep tenant_price base_fee ps) ([], 0) with
  | .error e => .error e
  | .ok st =>
    match agg.foldlM
      (msSecondStep landlord_share operator_fee_rate grid_compensation st.2 ps) st.1 with
    | .error e => .error e
    | .ok res => .ok res

/-- Step 2 of apply_policy_and_settle (settle.py lines 106-192): the use
case dispatch; an unknown use case raises ValueError before anything is
persisted. -/
def moneyFlows (db : DB) (use_case : String) (policy_body : Policy)
    (ps : List (Nat × Option Participant)) (agg : List (Nat × AggVals)) :
    Except String (List (Nat × Bal)) :=
  if use_case = "energy_community" then ecFlows db policy_body ps agg
  else if use_case = "mieterstrom" then msFlows policy_body ps agg
  else .error ("Unbekannter use_case: " ++ use_case)

/-- Everything apply_policy_and_settle produces: the updated database,
the new batch, its lines, the credit/debit map of step 2 and the final
net balances of step 3.  The source returns (batch, result) where result
carries the same credit/debit/final_net information. -/
structure SettleOut where
  db : DB
  batch : SettlementBatch
  lines : List SettlementLine
  balances : List (Nat × Bal)
  final : List (Nat × ℚ)
deriving DecidableEq

/-- apply_policy_and_settle (settle.py lines 86-225).  Exceptions of the
source (unknown use case, reading the role of an unresolved participant)
are Except.error values; in those cases nothing is persisted.  A
diverging netting loop is also reported as an error (the source would
simply never return).  Lines are only written for final balances at
least 1e-9 in magnitude, rounded to two decimals, and settle.py never
computes a proof hash, so proof_hash keeps the schema default "". -/
def apply_policy_and_settle (db : DB) (use_case : String) (policy_body : Policy)
    (events : List UsageEvent) : Except String SettleOut :=
  let ps := participantsOf events
  let agg := aggOf events
  match moneyFlows db use_case policy_body ps agg with
  | .error e => .error e
  | .ok result =>
    match apply_bilateral_netting result with
    | none => .error "netting loop diverges"
    | some (final, _stats) =>
      let batch : SettlementBatch := ⟨db.nextBatchId, use_case⟩
      let lines := final.filterMap (fun x =>
        if |x.2| < tol then none
        else some ⟨batch.id, x.1, round2 x.2,
          "Net after bilateral netting (" ++ use_case ++ ")", ""⟩)
      .ok ⟨{ db with
               batches := db.batches ++ [batch]
               lines := db.lines ++ lines
               nextBatchId := db.nextBatchId + 1 }, batch, lines, result, final⟩

/-- Unfolding a successful settlement run. -/
theorem settle_spec (db : DB) (uc : String) (pol : Policy)
    (evs : List UsageEvent) (out : SettleOut)
    (h : apply_policy_and_settle db uc pol evs = .ok out) :
    ∃ result final stats,
      moneyFlows db uc pol (participantsOf evs) (aggOf evs) = .ok result ∧
      apply_bilateral_netting result = some (final, stats) ∧
      out.balances = result ∧ out.final = final ∧
      out.batch = ⟨db.nextBatchId, uc⟩ ∧
      out.lines = final.filterMap (fun x =>
        if |x.2| < tol then none
        else some ⟨db.nextBatchId, x.1, round2 x.2,
          "Net after bilateral netting (" ++ uc ++ ")", ""⟩) ∧
      out.db = { db with
                   batches := db.batches ++ [out.batch]
                   lines := db.lines ++ out.lines
                   nextBatchId := db.nextBatchId + 1 } := by
  rw [apply_policy_and_settle] at h
  split at h
  next e heq => exact absurd h (by simp)
  next result heq =>
    split at h
    next heq2 => exact absurd h (by simp)
    next final stats heq2 =>
      dsimp only at h
      injection h with h
      refine ⟨result, final, stats, heq, heq2, ?_, ?_, ?_, ?_, ?_⟩ <;> rw [← h]

/-! ### Claim C8: unknown use case is rejected before persistence -/

/-- C8: a call to apply_policy_and_settle whose use_case is neither
energy_community nor mieterstrom fails with the ValueError of settle.py
line 192 for every database, policy and event collection; the error is
raised before the batch object is created, so nothing is persisted (no
ok value carrying an updated database exists). -/
theorem C8_unknown_use_case_rejected (db : DB) (uc : String) (pol : Policy)
    (evs : List UsageEvent) (h1 : uc ≠ "energy_community") (h2 : uc ≠ "mieterstrom") :
    apply_policy_and_settle db uc pol evs
      = .error ("Unbekannter use_case: " ++ uc) := by
  rw [apply_policy_and_settle, moneyFlows, if_neg h1, if_neg h2]

theorem C8_unknown_use_case_rejected_witness :
    ("solar_coop" ≠ "energy_community" ∧ "solar_coop" ≠ "mieterstrom") ∧
    apply_policy_and_settle ⟨[], [], [], 1⟩ "solar_coop" [] []
      = .error ("Unbekannter use_case: " ++ "solar_coop") :=
  ⟨⟨by decide, by decide⟩,
    C8_unknown_use_case_rejected ⟨[], [], [], 1⟩ "solar_coop" [] []
      (by decide) (by decide)⟩

/-! ### Plumbing lemmas for the settlement claims -/

theorem except_bind_error {α β : Type} (e : String) (g : α → Except String β) :
    (Except.error e >>= g) = Except.error e := rfl

theorem except_bind_ok {α β : Type} (a : α) (g : α → Except String β) :
    (Except.ok a >>= g) = g a := rfl

theorem foldlM_except_inv {α β : Type} (P : β → Prop) (f : β → α → Except String β)
    (hstep : ∀ b a b', f b a = .ok b' → P b → P b') :
    ∀ (l : List α) (b b' : β), List.foldlM f b l = .ok b' → P b → P b' := by
  intro l
  induction l with
  | nil =>
    intro b b' h hp
    simp only [List.foldlM] at h
    injection h with h
    rw [← h]
    exact hp
  | cons x xs ih =>
    intro b b' h hp
    simp only [List.foldlM] at h
    cases hf : f b x with
    | error e =>
      rw [hf, except_bind_error] at h
      exact absurd h (by simp)
    | ok b1 =>
      rw [hf, except_bind_ok] at h
      exact ih b1 b' h (hstep b x b1 hf hp)

theorem lookup_of_mem_nodup {α β : Type} [BEq α] [LawfulBEq α] {k : α} {v : β} :
    ∀ {l : List (α × β)}, (l.map Prod.fst).Nodup → (k, v) ∈ l →
      List.lookup k l = some v := by
  intro l
  induction l with
  | nil => intro _ h; simp at h
  | cons x xs ih =>
    intro hnd hm
    simp only [List.map_cons, List.nodup_cons] at hnd
    rcases List.mem_cons.mp hm with hm | hm
    · have h1 : k = x.1 := by rw [← hm]
      have h2 : v = x.2 := by rw [← hm]
      have hbeq : (k == x.1) = true := by simp [h1]
      simp [List.lookup, hbeq, h2]
    · have hk : k ≠ x.1 := by
        intro hcon
        apply hnd.1
        rw [← hcon]
        exact List.mem_map.mpr ⟨(k, v), hm, rfl⟩
      have hbeq : (k == x.1) = false := by simp [hk]
      simp only [List.lookup, hbeq]
      exact ih hnd.2 hm

theorem ecStep_nodup (sell buy fee grid : ℚ) (ps : List (Nat × Option Participant))
    (res : List (Nat × Bal)) (x : Nat × AggVals) (res' : List (Nat × Bal))
    (h : ecStep sell buy fee grid ps res x = .ok res')
    (hnd : (res.map Prod.fst).Nodup) : (res'.map Prod.fst).Nodup := by
  rw [ecStep] at h
  split at h
  · split at h
    · injection h with h; rw [← h]; exact dictUpd_keys_nodup _ _ _ _ hnd
    · injection h with h; rw [← h]; exact dictUpd_keys_nodup _ _ _ _ hnd
    · injection h with h; rw [← h]; exact hnd
  · exact absurd h (by simp)
  · exact absurd h (by simp)

theorem msTenantStep_nodup (tenant_price base_fee : ℚ)
    (ps : List (Nat × Option Participant)) (st : List (Nat × Bal) × ℚ)
    (x : Nat × AggVals) (st' : List (Nat × Bal) × ℚ)
    (h : msTenantStep tenant_price base_fee ps st x = .ok st')
    (hnd : (st.1.map Prod.fst).Nodup) : (st'.1.map Prod.fst).Nodup := by
  rw [msTenantStep] at h
  split at h
  · split at h
    · injection h with h; rw [← h]; exact dictUpd_keys_nodup _ _ _ _ hnd
    · injection h with h; rw [← h]; exact hnd
  · exact absurd h (by simp)
  · exact absurd h (by simp)

theorem msSecondStep_nodup (landlord_share operator_fee_rate grid_compensation ttp : ℚ)
    (ps : List (Nat × Option Participant)) (res : List (Nat × Bal))
    (x : Nat × AggVals) (res' : List (Nat × Bal))
    (h : msSecondStep landlord_share operator_fee_rate grid_compensation ttp ps res x
      = .ok res')
    (hnd : (res.map Prod.fst).Nodup) : (res'.map Prod.fst).Nodup := by
  rw [msSecondStep] at h
  split at h
  · split at h
    · split at h
      · injection h with h; rw [← h]
        exact dictUpd_keys_nodup _ _ _ _ (dictUpd_keys_nodup _ _ _ _ hnd)
      · injection h with h; rw [← h]
        exact dictUpd_keys_nodup _ _ _ _ (dictUpd_keys_nodup _ _ _ _ hnd)
    · injection h with h; rw [← h]; exact dictUpd_keys_nodup _ _ _ _ hnd
    · injection h with h; rw [← h]; exact hnd
  · exact absurd h (by simp)
  · exact absurd h (by simp)

/-- The credit/debit map produced by either use case has distinct
participant ids (it is read out of Python dicts). -/
theorem moneyFlows_keys_nodup (db : DB) (uc : String) (pol : Policy)
    (ps : List (Nat × Option Participant)) (agg : List (Nat × AggVals))
    (result : List (Nat × Bal)) (h : moneyFlows db uc pol ps agg = .ok result) :
    (result.map Prod.fst).Nodup := by
  rw [moneyFlows] at h
  split at h
  · rw [ecFlows] at h
    split at h
    · exact absurd h (by simp)
    · split at h
      · injection h with h
        rw [← h]
        exact foldlM_except_inv (fun r => (r.map Prod.fst).Nodup) _
          (fun b a b' hs hp => ecStep_nodup _ _ _ _ _ _ _ _ hs hp) agg _ _
          (by assumption) (by simp)
      · split at h
        · exact absurd h (by simp)
        · injection h with h
          rw [← h]
          apply dictUpd_keys_nodup
          exact foldlM_except_inv (fun r => (r.map Prod.fst).Nodup) _
            (fun b a b' hs hp => ecStep_nodup _ _ _ _ _ _ _ _ hs hp) agg _ _
            (by assumption) (by simp)
  · split at h
    · rw [msFlows] at h
      split at h
      · exact absurd h (by simp)
      · split at h
        · exact absurd h (by simp)
        · injection h with h
          rw [← h]
          have hst := foldlM_except_inv (fun st : List (Nat × Bal) × ℚ =>
            (st.1.map Prod.fst).Nodup) _
            (fun b a b' hs hp => msTenantStep_nodup _ _ _ _ _ _ hs hp) agg _ _
            (by assumption) (by simp)
          exact foldlM_except_inv (fun r => (r.map Prod.fst).Nodup) _
            (fun b a b' hs hp => msSecondStep_nodup _ _ _ _ _ _ _ _ hs hp) agg _ _
            (by assumption) hst
    · exact absurd h (by simp)

theorem half_pos_q : 0 < mkRat 1 2 := by norm_num [mkRat, Rat.normalize]

theorem hundredth_pos_q : 0 < mkRat 1 100 := by norm_num [mkRat, Rat.normalize]

theorem roundHalfEven_nonpos (x : ℚ) (hx : x ≤ 0) : roundHalfEven x ≤ 0 := by
  have hfl : ⌊x⌋ ≤ 0 := by
    calc ⌊x⌋ ≤ ⌊(0 : ℚ)⌋ := Int.floor_le_floor hx
      _ = 0 := Int.floor_zero
  have hle : (⌊x⌋ : ℚ) ≤ x := Int.floor_le x
  have hhalf := half_pos_q
  rw [roundHalfEven]
  by_cases h1 : x - (⌊x⌋ : ℚ) < mkRat 1 2
  · rw [if_pos h1]
    exact hfl
  · rw [if_neg h1]
    push_neg at h1
    have hf1 : ⌊x⌋ ≤ -1 := by
      by_contra hcon
      push_neg at hcon
      have hf0 : ⌊x⌋ = 0 := by omega
      rw [hf0] at h1
      simp only [Int.cast_zero, sub_zero] at h1
      linarith
    by_cases h2 : x - (⌊x⌋ : ℚ) > mkRat 1 2
    · rw [if_pos h2]
      omega
    · rw [if_neg h2]
      by_cases h3 : ⌊x⌋ % 2 = 0
      · rw [if_pos h3]
        exact hfl
      · rw [if_neg h3]
        omega

theorem roundHalfEven_nonneg (x : ℚ) (hx : 0 ≤ x) : 0 ≤ roundHalfEven x := by
  have hfl : 0 ≤ ⌊x⌋ := Int.le_floor.mpr (by exact_mod_cast hx)
  rw [roundHalfEven]
  by_cases h1 : x - (⌊x⌋ : ℚ) < mkRat 1 2
  · rw [if_pos h1]
    exact hfl
  · rw [if_neg h1]
    by_cases h2 : x - (⌊x⌋ : ℚ) > mkRat 1 2
    · rw [if_pos h2]
      omega
    · rw [if_neg h2]
      by_cases h3 : ⌊x⌋ % 2 = 0
      · rw [if_pos h3]
        exact hfl
      · rw [if_neg h3]
        omega

/-- A positive rounded amount comes from a positive final balance. -/
theorem round2_pos (x : ℚ) (h : 0 < round2 x) : 0 < x := by
  by_contra hcon
  push_neg at hcon
  have h1 : x * 100 ≤ 0 := by nlinarith
  have h2 : roundHalfEven (x * 100) ≤ 0 := roundHalfEven_nonpos _ h1
  have h3 : (roundHalfEven (x * 100) : ℚ) ≤ 0 := by exact_mod_cast h2
  have h4 := hundredth_pos_q
  rw [round2] at h
  nlinarith

/-- A negative rounded amount comes from a negative final balance. -/
theorem round2_neg (x : ℚ) (h : round2 x < 0) : x < 0 := by
  by_contra hcon
  push_neg at hcon
  have h1 : 0 ≤ x * 100 := by nlinarith
  have h2 : 0 ≤ roundHalfEven (x * 100) := roundHalfEven_nonneg _ h1
  have h3 : (0 : ℚ) ≤ (roundHalfEven (x * 100) : ℚ) := by exact_mod_cast h2
  have h4 := hundredth_pos_q
  rw [round2] at h
  nlinarith

/-! ### Claim C5: events outside the recognized kinds are silently skipped -/

/-- Aggregation ignores every event whose kind falls through the if/elif
chain of settle.py lines 97-104: folding over a list equals folding over
its recognized-kind sublist. -/
theorem foldl_aggStep_filter (evs : List UsageEvent) :
    ∀ agg, evs.foldl aggStep agg
      = (evs.filter (fun ev => recognizedKind ev.event_type)).foldl aggStep agg := by
  induction evs with
  | nil => intro agg; rfl
  | cons e es ih =>
    intro agg
    rw [List.foldl_cons, List.filter_cons]
    cases hr : recognizedKind e.event_type with
    | true =>
      rw [if_pos (by simp [hr]), List.foldl_cons]
      exact ih _
    | false =>
      rw [if_neg (by simp [hr]), aggStep_unrecognized agg e hr]
      exact ih _

def c5P1 : Participant := ⟨1, "Consumer A", Role.consumer⟩

def c5Db : DB := ⟨[c5P1], [], [], 1⟩

/-- A recognized consumption event plus a battery_charge event, a kind
outside the four recognized by the aggregation. -/
def c5Events : List UsageEvent :=
  [⟨1, some c5P1, EventKind.consumption, 10⟩,
   ⟨1, some c5P1, EventKind.battery_charge, 5⟩]

/-- An event whose participant id resolves to no participant row. -/
def c5BadEvents : List UsageEvent := [⟨2, none, EventKind.consumption, 10⟩]

section
attribute [local semireducible] Rat.sub Rat.add Rat.mul Rat.inv

/-- Refutes C5 as stated: this event collection contains an event of an
unrecognized kind (battery_charge), yet apply_policy_and_settle accepts
the batch and persists a line priced from the consumption event alone,
instead of rejecting the whole batch. -/
theorem C5_counterexample :
    c5Events.any (fun ev => !recognizedKind ev.event_type) = true ∧
    (apply_policy_and_settle c5Db "energy_community" [] c5Events).toOption.map
        (fun o => o.lines.map (fun l => (l.participant_id, l.amount_eur)))
      = some [(1, -(mkRat 12 10))] := by
  constructor
  · decide
  · decide

/-- C5 corrected: an event whose kind lies outside the recognized set is
silently dropped from aggregation (the fold equals the fold over the
recognized-kind sublist, and a concrete batch containing such an event
still settles), while an event referencing an unknown participant does
abort the batch (reading None.role raises before persistence). -/
theorem C5_unrecognized_events_skipped :
    (∀ evs : List UsageEvent,
        aggOf evs = aggOf (evs.filter (fun ev => recognizedKind ev.event_type))) ∧
    (apply_policy_and_settle c5Db "energy_community" [] c5Events).isOk = true ∧
    (apply_policy_and_settle c5Db "energy_community" [] c5BadEvents).isOk = false := by
  refine ⟨fun evs => foldl_aggStep_filter evs [], ?_, ?_⟩
  · decide
  · decide

end

/-! ### Claim C3: the sign convention of persisted settlement lines -/

theorem internal_mem (result : List (Nat × Bal)) (w : Nat × ℚ)
    (hw : w ∈ internalOf result) :
    ∃ z ∈ result, z.1 = w.1 ∧ z.2.credit - z.2.debit = w.2 := by
  obtain ⟨z, hz, hze⟩ := List.mem_map.mp hw
  exact ⟨z, hz, congrArg Prod.fst hze, congrArg Prod.snd hze⟩

/-- A participant whose id survives into positive_balances has
credit > debit in the credit/debit map. -/
theorem pos_key_balance (result : List (Nat × Bal))
    (hnd : (result.map Prod.fst).Nodup) (z : Nat × Bal) (hz : z ∈ result)
    (hk : z.1 ∈ (pos0Of result).map Prod.fst) :
    z.2.debit < z.2.credit := by
  obtain ⟨w, hw, hw1⟩ := List.mem_map.mp hk
  obtain ⟨hwi, hwt⟩ := (mem_pos0_iff result w).mp hw
  obtain ⟨y, hy, hy1, hy2⟩ := internal_mem result w hwi
  have he : y.1 = z.1 := hy1.trans hw1
  have hm1 : (z.1, y.2) ∈ result := by rw [← he]; exact hy
  have hzz : y.2 = z.2 := key_unique hnd hm1 hz
  have ht := tol_pos
  rw [← hy2, hzz] at hwt
  linarith

/-- A participant whose id survives into negative_balances has
debit > credit in the credit/debit map. -/
theorem neg_key_balance (result : List (Nat × Bal))
    (hnd : (result.map Prod.fst).Nodup) (z : Nat × Bal) (hz : z ∈ result)
    (hk : z.1 ∈ (neg0Of result).map Prod.fst) :
    z.2.credit < z.2.debit := by
  obtain ⟨w, hw, hw1⟩ := List.mem_map.mp hk
  obtain ⟨hwi, hwt⟩ := (mem_neg0_iff result w).mp hw
  obtain ⟨y, hy, hy1, hy2⟩ := internal_mem result (w.1, -w.2) hwi
  have he : y.1 = z.1 := hy1.trans hw1
  have hm1 : (z.1, y.2) ∈ result := by rw [← he]; exact hy
  have hzz : y.2 = z.2 := key_unique hnd hm1 hz
  have ht := tol_pos
  have hy2q : y.2.credit - y.2.debit = -w.2 := hy2
  rw [hzz] at hy2q
  linarith

/-- The sign convention actually implemented: a persisted amount is
positive only for a participant whose credits exceed their debits (the
participant is owed money) and negative only for one whose debits exceed
their credits (the participant owes money). -/
def signOk (balances : List (Nat × Bal)) (l : SettlementLine) : Bool :=
  match List.lookup l.participant_id balances with
  | none => false
  | some b =>
      (!(decide (0 < l.amount_eur)) || decide (b.debit < b.credit)) &&
      (!(decide (l.amount_eur < 0)) || decide (b.credit < b.debit))

theorem signOk_of (balances : List (Nat × Bal)) (l : SettlementLine) (b : Bal)
    (hl : List.lookup l.participant_id balances = some b)
    (h1 : 0 < l.amount_eur → b.debit < b.credit)
    (h2 : l.amount_eur < 0 → b.credit < b.debit) :
    signOk balances l = true := by
  simp only [signOk, hl]
  by_cases hp : 0 < l.amount_eur
  · by_cases hn : l.amount_eur < 0
    · exact absurd (lt_trans hn hp) (lt_irrefl _)
    · simp [hp, hn, h1 hp]
  · by_cases hn : l.amount_eur < 0
    · simp [hp, hn, h2 hn]
    · simp [hp, hn]

/-- C3 corrected: the implemented sign convention is the opposite of the
claimed one.  Every settlement line written by apply_policy_and_settle
carries a positive amount exactly for participants whose credits exceed
their debits (they are owed money) and a negative amount for those who
owe; final_net = credit - debit keeps the creditor side positive. -/
theorem C3_line_sign_convention (db : DB) (uc : String) (pol : Policy)
    (evs : List UsageEvent) (out : SettleOut)
    (h : apply_policy_and_settle db uc pol evs = .ok out) :
    out.lines.all (signOk out.balances) = true := by
  obtain ⟨result, final, stats, heq, heq2, hbal, hfinal, hbatch, hlines, hdb⟩ :=
    settle_spec db uc pol evs out h
  have hnd : (result.map Prod.fst).Nodup :=
    moneyFlows_keys_nodup db uc pol (participantsOf evs) (aggOf evs) result heq
  obtain ⟨s, hloop, hfe, hpk, hnk, hpnn, hnnn, _⟩ :=
    netting_run result (final, stats) hnd heq2
  rw [List.all_eq_true]
  intro l hl
  rw [hlines] at hl
  obtain ⟨x, hx, hfx⟩ := List.mem_filterMap.mp hl
  by_cases habs : |x.2| < tol
  · rw [if_pos habs] at hfx
    exact absurd hfx (by simp)
  · rw [if_neg habs] at hfx
    injection hfx with hfx
    have hxf : x ∈ (internalOf result).map (fun y => (y.1, finalOf s.pos s.neg y.1)) := by
      rw [← hfe]
      exact hx
    obtain ⟨w, hw, hwe⟩ := List.mem_map.mp hxf
    obtain ⟨z, hz, hz1, hz2⟩ := internal_mem result w hw
    have hx2 : x.2 = finalOf s.pos s.neg w.1 := (congrArg Prod.snd hwe).symm
    have hpid : l.participant_id = x.1 := by rw [← hfx]
    have hamt : l.amount_eur = round2 x.2 := by rw [← hfx]
    have hx1 : x.1 = w.1 := (congrArg Prod.fst hwe).symm
    apply signOk_of out.balances l z.2
    · rw [hpid, hbal, hx1, ← hz1]
      exact lookup_of_mem_nodup hnd hz
    · intro hpos
      rw [hamt] at hpos
      have hq : 0 < x.2 := round2_pos _ hpos
      rw [hx2, finalOf] at hq
      split at hq
      next d hn1 =>
        have hd : (0 : ℚ) ≤ d := hnnn (w.1, d) (lookup_some_mem hn1)
        linarith
      next hn1 =>
        split at hq
        next c hp1 =>
          have hkey : w.1 ∈ s.pos.map Prod.fst :=
            List.mem_map.mpr ⟨(w.1, c), lookup_some_mem hp1, rfl⟩
          rw [hpk] at hkey
          exact pos_key_balance result hnd z hz (by rw [hz1]; exact hkey)
        next hp1 => norm_num at hq
    · intro hneg
      rw [hamt] at hneg
      have hq : x.2 < 0 := round2_neg _ hneg
      rw [hx2, finalOf] at hq
      split at hq
      next d hn1 =>
        have hkey : w.1 ∈ s.neg.map Prod.fst :=
          List.mem_map.mpr ⟨(w.1, d), lookup_some_mem hn1, rfl⟩
        rw [hnk] at hkey
        exact neg_key_balance result hnd z hz (by rw [hz1]; exact hkey)
      next hn1 =>
        split at hq
        next c hp1 =>
          have hc : (0 : ℚ) ≤ c := hpnn (w.1, c) (lookup_some_mem hp1)
          linarith
        next hp1 => norm_num at hq

theorem except_eq_ok_of_toOption {ε α : Type} {e : Except ε α} {a : α}
    (h : e.toOption = some a) : e = Except.ok a := by
  cases e with
  | error x => simp [Except.toOption] at h
  | ok b =>
    simp [Except.toOption] at h
    rw [h]

def c3P1 : Participant := ⟨1, "Consumer B", Role.consumer⟩

def c3Db : DB := ⟨[c3P1], [], [], 1⟩

def c3Events : List UsageEvent := [⟨1, some c3P1, EventKind.consumption, 10⟩]

section
attribute [local semireducible] Rat.sub Rat.add Rat.mul Rat.inv

/-- Refutes C3 as stated: after settling a single consumer who consumed
10 kWh, the participant owes money (debit 1.2 exceeds credit 0), yet the
persisted line amount is the negative value -1.20 - the opposite of the
claimed positive-means-owes convention. -/
theorem C3_counterexample :
    (apply_policy_and_settle c3Db "energy_community" [] c3Events).toOption.map
        (fun o => (o.lines.map (fun l => (l.participant_id, l.amount_eur)),
          List.lookup 1 o.balances))
      = some ([(1, -(mkRat 12 10))], some ⟨0, mkRat 12 10⟩) ∧
    -(mkRat 12 10) < (0 : ℚ) ∧ (0 : ℚ) < mkRat 12 10 := by
  refine ⟨?_, ?_, ?_⟩
  · decide
  · decide
  · decide

def c3Out : SettleOut :=
  (apply_policy_and_settle c3Db "energy_community" [] c3Events).toOption.getD
    ⟨⟨[], [], [], 0⟩, ⟨0, ""⟩, [], [], []⟩

theorem C3_line_sign_convention_witness :
    apply_policy_and_settle c3Db "energy_community" [] c3Events = .ok c3Out ∧
    c3Out.lines.all (signOk c3Out.balances) = true :=
  ⟨except_eq_ok_of_toOption (by decide),
    C3_line_sign_convention c3Db "energy_community" [] c3Events c3Out
      (except_eq_ok_of_toOption (by decide))⟩

end

/-! ### Claim C6: which participants get a persisted line -/

/-- Some settlement line of the batch belongs to the participant. -/
def lineFor (lines : List SettlementLine) (pid : Nat) : Bool :=
  lines.any (fun l => l.participant_id == pid)

/-- Every line of the participant carries the given amount. -/
def lineAmtOk (pid : Nat) (amt : ℚ) (l : SettlementLine) : Bool :=
  (!(l.participant_id == pid)) || decide (l.amount_eur = amt)

/-- The line-existence condition actually implemented for one final
balance entry: a line exists iff the magnitude reaches the 1e-9
zero-epsilon, and any line of the participant carries the rounded final
net amount. -/
def lineOk (lines : List SettlementLine) (x : Nat × ℚ) : Bool :=
  (decide (tol ≤ |x.2|) == lineFor lines x.1) &&
  lines.all (lineAmtOk x.1 (round2 x.2))

/-- C6 corrected: a SettlementLine is persisted for a participant iff the
absolute final net amount is at least the fixed 1e-9 zero-epsilon of
settle.py line 214, and it then carries round(final_net, 2); no policy
minimum-payout threshold is consulted anywhere. -/
theorem C6_line_iff_epsilon (db : DB) (uc : String) (pol : Policy)
    (evs : List UsageEvent) (out : SettleOut)
    (h : apply_policy_and_settle db uc pol evs = .ok out) :
    out.final.all (lineOk out.lines) = true := by
  obtain ⟨result, final, stats, heq, heq2, hbal, hfinal, hbatch, hlines, hdb⟩ :=
    settle_spec db uc pol evs out h
  have hnd : (result.map Prod.fst).Nodup :=
    moneyFlows_keys_nodup db uc pol (participantsOf evs) (aggOf evs) result heq
  obtain ⟨s, hloop, hfe, hpk, hnk, hpnn, hnnn, _⟩ :=
    netting_run result (final, stats) hnd heq2
  have hfk : final.map Prod.fst = result.map Prod.fst := by
    have h1 : final = (internalOf result).map (fun y => (y.1, finalOf s.pos s.neg y.1)) :=
      hfe
    rw [h1, List.map_map]
    have hcomp : (internalOf result).map
          (Prod.fst ∘ fun y => (y.1, finalOf s.pos s.neg y.1))
        = (internalOf result).map Prod.fst :=
      List.map_congr_left (fun a _ => rfl)
    rw [hcomp, internal_keys]
  have hfnd : (final.map Prod.fst).Nodup := by
    rw [hfk]
    exact hnd
  rw [List.all_eq_true]
  intro x hx
  rw [hfinal] at hx
  rw [lineOk]
  have hB : out.lines.all (lineAmtOk x.1 (round2 x.2)) = true := by
    rw [List.all_eq_true]
    intro l hlm
    rw [hlines] at hlm
    obtain ⟨y, hy, hfy⟩ := List.mem_filterMap.mp hlm
    by_cases hys : |y.2| < tol
    · rw [if_pos hys] at hfy
      exact absurd hfy (by simp)
    · rw [if_neg hys] at hfy
      injection hfy with hfy
      have hpid : l.participant_id = y.1 := by rw [← hfy]
      have hamt : l.amount_eur = round2 y.2 := by rw [← hfy]
      rw [lineAmtOk, hpid, hamt]
      cases hbe : (y.1 == x.1) with
      | false => rfl
      | true =>
        have hyx : y.1 = x.1 := eq_of_beq hbe
        have hm1 : (x.1, y.2) ∈ final := by
          rw [← hyx]
          exact hy
        have h22 : y.2 = x.2 := key_unique hfnd hm1 hx
        rw [h22]
        simp
  have hA : decide (tol ≤ |x.2|) = lineFor out.lines x.1 := by
    by_cases hge : tol ≤ |x.2|
    · rw [decide_eq_true hge]
      symm
      rw [lineFor, hlines, List.any_eq_true]
      exact ⟨⟨db.nextBatchId, x.1, round2 x.2,
          "Net after bilateral netting (" ++ uc ++ ")", ""⟩,
        List.mem_filterMap.mpr ⟨x, hx, by rw [if_neg (not_lt.mpr hge)]⟩,
        beq_self_eq_true x.1⟩
    · rw [decide_eq_false hge]
      symm
      rw [lineFor, hlines, List.any_eq_false]
      intro l hlm hcontra
      have hb : (l.participant_id == x.1) = true := hcontra
      obtain ⟨y, hy, hfy⟩ := List.mem_filterMap.mp hlm
      by_cases hys : |y.2| < tol
      · rw [if_pos hys] at hfy
        exact absurd hfy (by simp)
      · rw [if_neg hys] at hfy
        injection hfy with hfy
        rw [← hfy] at hb
        have hb2 : (y.1 == x.1) = true := hb
        have hyx : y.1 = x.1 := eq_of_beq hb2
        have hm1 : (x.1, y.2) ∈ final := by
          rw [← hyx]
          exact hy
        have h22 : y.2 = x.2 := key_unique hfnd hm1 hx
        rw [h22] at hys
        exact absurd (not_le.mp hge) hys
  rw [hB, hA]
  simp

def c6P1 : Participant := ⟨1, "Consumer C", Role.consumer⟩

def c6Db : DB := ⟨[c6P1], [], [], 1⟩

def c6Pol : Policy := [("min_payout_threshold", 1)]

def c6Events : List UsageEvent :=
  [⟨1, some c6P1, EventKind.consumption, mkRat 825 100⟩]

section
attribute [local semireducible] Rat.sub Rat.add Rat.mul Rat.inv

/-- Refutes C6 as stated: with a policy carrying min_payout_threshold = 1
the consumer's final net magnitude is 0.99 = threshold - 0.01, yet a line
for the full -0.99 is persisted - the policy threshold is never read. -/
theorem C6_counterexample :
    (apply_policy_and_settle c6Db "energy_community" c6Pol c6Events).toOption.map
        (fun o => (o.lines.map (fun l => (l.participant_id, l.amount_eur)), o.final))
      = some ([(1, -(mkRat 99 100))], [(1, -(mkRat 99 100))]) ∧
    |-(mkRat 99 100)| = (1 : ℚ) - mkRat 1 100 := by
  constructor
  · decide
  · decide

def c6Out : SettleOut :=
  (apply_policy_and_settle c6Db "energy_community" c6Pol c6Events).toOption.getD
    ⟨⟨[], [], [], 0⟩, ⟨0, ""⟩, [], [], []⟩

theorem C6_line_iff_epsilon_witness :
    apply_policy_and_settle c6Db "energy_community" c6Pol c6Events = .ok c6Out ∧
    c6Out.final.all (lineOk c6Out.lines) = true :=
  ⟨except_eq_ok_of_toOption (by decide),
    C6_line_iff_epsilon c6Db "energy_community" c6Pol c6Events c6Out
      (except_eq_ok_of_toOption (by decide))⟩

end

/-! ### JSON canonical serialization (app/utils/crypto.py) -/

/-- Lowercase hex digit character code, as produced by the \\uXXXX escapes
of json.dumps with ensure_ascii. -/
def hexDig (n : Nat) : Nat := if n < 10 then 48 + n else 87 + n

/-- Four hex digits of a 16-bit code unit. -/
def hex4 (n : Nat) : List Nat :=
  [hexDig (n / 4096 % 16), hexDig (n / 256 % 16), hexDig (n / 16 % 16), hexDig (n % 16)]

/-- One \\uXXXX escape. -/
def uEsc (n : Nat) : List Nat := 92 :: 117 :: hex4 n

/-- UTF-8/ASCII bytes json.dumps emits for one character of a string
value (ensure_ascii=True): two-character escapes for quote, backslash and
the five control shortcuts, \\uXXXX for other controls and all
non-ASCII characters, surrogate pairs beyond the BMP. -/
def escChar (n : Nat) : List Nat :=
  if n = 34 then [92, 34]
  else if n = 92 then [92, 92]
  else if n = 8 then [92, 98]
  else if n = 9 then [92, 116]
  else if n = 10 then [92, 110]
  else if n = 12 then [92, 102]
  else if n = 13 then [92, 114]
  else if n < 32 then uEsc n
  else if n < 127 then [n]
  else if n < 65536 then uEsc n
  else uEsc (55296 + (n - 65536) / 1024) ++ uEsc (56320 + (n - 65536) % 1024)

/-- Byte rendering of a JSON string body (without the enclosing
quotes). -/
def escList : List Char → List Nat
  | [] => []
  | c :: cs => escChar c.toNat ++ escList cs

/-- Decoding one hex digit. -/
def decHex (c : Nat) : Option Nat :=
  if 48 ≤ c ∧ c ≤ 57 then some (c - 48)
  else if 97 ≤ c ∧ c ≤ 102 then some (c - 87)
  else none

/-- Decoding four hex digits. -/
def dec4 : List Nat → Option (Nat × List Nat)
  | a :: b :: c :: d :: r =>
    match decHex a, decHex b, decHex c, decHex d with
    | some x, some y, some z, some w => some (4096 * x + 256 * y + 16 * z + w, r)
    | _, _, _, _ => none
  | _ => none

/-- Decoding a two-character escape. -/
def decEscCode (e : Nat) : Option Nat :=
  if e = 34 then some 34
  else if e = 92 then some 92
  else if e = 98 then some 8
  else if e = 116 then some 9
  else if e = 110 then some 10
  else if e = 102 then some 12
  else if e = 114 then some 13
  else none

/-- Fueled decoder of a JSON string body up to the closing quote; a left
inverse of escList used to prove the serialization injective. -/
def decStr : Nat → List Nat → Option (List Char × List Nat)
  | 0, _ => none
  | _ + 1, [] => none
  | fuel + 1, b :: rest =>
    if b = 34 then some ([], rest)
    else if b = 92 then
      match rest with
      | [] => none
      | e :: r2 =>
        if e = 117 then
          match dec4 r2 with
          | none => none
          | some (n, r3) =>
            if 55296 ≤ n ∧ n < 56320 then
              match r3 with
              | b2 :: e2 :: r4 =>
                if b2 = 92 ∧ e2 = 117 then
                  match dec4 r4 with
                  | none => none
                  | some (m, r5) =>
                    if 56320 ≤ m ∧ m < 57344 then
                      (decStr fuel r5).map (fun pr =>
                        (Char.ofNat (65536 + 1024 * (n - 55296) + (m - 56320)) :: pr.1, pr.2))
                    else none
                else none
              | _ => none
            else (decStr fuel r3).map (fun pr => (Char.ofNat n :: pr.1, pr.2))
        else
          match decEscCode e with
          | none => none
          | some code => (decStr fuel r2).map (fun pr => (Char.ofNat code :: pr.1, pr.2))
    else (decStr fuel rest).map (fun pr => (Char.ofNat b :: pr.1, pr.2))

theorem decHex_hexDig (x : Nat) (h : x < 16) : decHex (hexDig x) = some x := by
  rw [hexDig, decHex]
  by_cases h10 : x < 10
  · rw [if_pos h10, if_pos ⟨by omega, by omega⟩]
    congr 1
    omega
  · rw [if_neg h10, if_neg (by omega), if_pos ⟨by omega, by omega⟩]
    congr 1
    omega

theorem dec4_hex4 (n : Nat) (r : List Nat) (h : n < 65536) :
    dec4 (hex4 n ++ r) = some (n, r) := by
  rw [hex4]
  show dec4 (hexDig (n / 4096 % 16) :: hexDig (n / 256 % 16) :: hexDig (n / 16 % 16)
      :: hexDig (n % 16) :: r) = some (n, r)
  rw [dec4]
  rw [decHex_hexDig _ (by omega), decHex_hexDig _ (by omega),
    decHex_hexDig _ (by omega), decHex_hexDig _ (by omega)]
  show some (4096 * (n / 4096 % 16) + 256 * (n / 256 % 16) + 16 * (n / 16 % 16) + n % 16, r)
    = some (n, r)
  congr 2
  omega

theorem decStr_quote (f : Nat) (r : List Nat) : decStr (f + 1) (34 :: r) = some ([], r) := by
  simp [decStr]

theorem decStr_lit (f b : Nat) (r : List Nat) (h1 : b ≠ 34) (h2 : b ≠ 92) :
    decStr (f + 1) (b :: r) = (decStr f r).map (fun pr => (Char.ofNat b :: pr.1, pr.2)) := by
  simp [decStr, h1, h2]

theorem decStr_esc (f e code : Nat) (r : List Nat) (hne : e ≠ 117)
    (he : decEscCode e = some code) :
    decStr (f + 1) (92 :: e :: r)
      = (decStr f r).map (fun pr => (Char.ofNat code :: pr.1, pr.2)) := by
  simp [decStr, hne, he]

theorem decStr_u (f n : Nat) (r : List Nat) (hlt : n < 65536)
    (hns : ¬(55296 ≤ n ∧ n < 56320)) :
    decStr (f + 1) (92 :: 117 :: (hex4 n ++ r))
      = (decStr f r).map (fun pr => (Char.ofNat n :: pr.1, pr.2)) := by
  simp [decStr, dec4_hex4 n r hlt, hns]

theorem decStr_hi (f hi lo : Nat) (r : List Nat) (hr1 : 55296 ≤ hi) (hr2 : hi < 56320)
    (hl1 : 56320 ≤ lo) (hl2 : lo < 57344) :
    decStr (f + 1) (92 :: 117 :: (hex4 hi ++ (92 :: 117 :: (hex4 lo ++ r))))
      = (decStr f r).map (fun pr =>
          (Char.ofNat (65536 + 1024 * (hi - 55296) + (lo - 56320)) :: pr.1, pr.2)) := by
  simp [decStr, dec4_hex4 hi _ (by omega), dec4_hex4 lo _ (by omega), hr1, hr2, hl1, hl2]

theorem decStr_pair (f n : Nat) (r : List Nat) (h1 : 65536 ≤ n) (h2 : n < 1114112) :
    decStr (f + 1)
        (uEsc (55296 + (n - 65536) / 1024) ++ (uEsc (56320 + (n - 65536) % 1024) ++ r))
      = (decStr f r).map (fun pr => (Char.ofNat n :: pr.1, pr.2)) := by
  rw [uEsc, uEsc]
  show decStr (f + 1)
      (92 :: 117 :: (hex4 (55296 + (n - 65536) / 1024)
        ++ (92 :: 117 :: (hex4 (56320 + (n - 65536) % 1024) ++ r))))
    = (decStr f r).map (fun pr => (Char.ofNat n :: pr.1, pr.2))
  rw [decStr_hi f _ _ r (by omega) (by omega) (by omega) (by omega)]
  have harith : 65536 + 1024 * ((55296 + (n - 65536) / 1024) - 55296)
      + ((56320 + (n - 65536) % 1024) - 56320) = n := by omega
  rw [harith]

theorem char_valid_nat (c : Char) :
    c.toNat < 55296 ∨ (57343 < c.toNat ∧ c.toNat < 1114112) := c.valid

theorem char_toNat_inj {c d : Char} (h : c.toNat = d.toNat) : c = d := by
  rw [← Char.ofNat_toNat c, h, Char.ofNat_toNat]

/-- The decoder inverts escList on every encoded string followed by the
closing quote. -/
theorem decStr_escList : ∀ (cs : List Char) (fuel : Nat) (r : List Nat),
    cs.length < fuel → decStr fuel (escList cs ++ 34 :: r) = some (cs, r) := by
  intro cs
  induction cs with
  | nil =>
    intro fuel r hf
    match fuel, hf with
    | f + 1, _ =>
      rw [escList, List.nil_append]
      exact decStr_quote f r
  | cons c cs ih =>
    intro fuel r hf
    match fuel, hf with
    | f + 1, hf =>
      have hfl : cs.length < f := by
        rw [List.length_cons] at hf
        omega
      have hIH := ih f r hfl
      have hval := char_valid_nat c
      rw [escList, List.append_assoc]
      rw [escChar]
      by_cases h34 : c.toNat = 34
      · rw [if_pos h34]
        show decStr (f + 1) (92 :: 34 :: (escList cs ++ 34 :: r)) = some (c :: cs, r)
        rw [decStr_esc f 34 34 _ (by omega) (by rfl), hIH, Option.map_some']
        rw [show (34 : Nat) = c.toNat from h34.symm, Char.ofNat_toNat]
      · rw [if_neg h34]
        by_cases h92 : c.toNat = 92
        · rw [if_pos h92]
          show decStr (f + 1) (92 :: 92 :: (escList cs ++ 34 :: r)) = some (c :: cs, r)
          rw [decStr_esc f 92 92 _ (by omega) (by rfl), hIH, Option.map_some']
          rw [show (92 : Nat) = c.toNat from h92.symm, Char.ofNat_toNat]
        · rw [if_neg h92]
          by_cases h8 : c.toNat = 8
          · rw [if_pos h8]
            show decStr (f + 1) (92 :: 98 :: (escList cs ++ 34 :: r)) = some (c :: cs, r)
            rw [decStr_esc f 98 8 _ (by omega) (by rfl), hIH, Option.map_some']
            rw [show (8 : Nat) = c.toNat from h8.symm, Char.ofNat_toNat]
          · rw [if_neg h8]
            by_cases h9 : c.toNat = 9
            · rw [if_pos h9]
              show decStr (f + 1) (92 :: 116 :: (escList cs ++ 34 :: r)) = some (c :: cs, r)
              rw [decStr_esc f 116 9 _ (by omega) (by rfl), hIH, Option.map_some']
              rw [show (9 : Nat) = c.toNat from h9.symm, Char.ofNat_toNat]
            · rw [if_neg h9]
              by_cases h10 : c.toNat = 10
              · rw [if_pos h10]
                show decStr (f + 1) (92 :: 110 :: (escList cs ++ 34 :: r)) = some (c :: cs, r)
                rw [decStr_esc f 110 10 _ (by omega) (by rfl), hIH, Option.map_some']
                rw [show (10 : Nat) = c.toNat from h10.symm, Char.ofNat_toNat]
              · rw [if_neg h10]
                by_cases h12 : c.toNat = 12
                · rw [if_pos h12]
                  show decStr (f + 1) (92 :: 102 :: (escList cs ++ 34 :: r)) = some (c :: cs, r)
                  rw [decStr_esc f 102 12 _ (by omega) (by rfl), hIH, Option.map_some']
                  rw [show (12 : Nat) = c.toNat from h12.symm, Char.ofNat_toNat]
                · rw [if_neg h12]
                  by_cases h13 : c.toNat = 13
                  · rw [if_pos h13]
                    show decStr (f + 1) (92 :: 114 :: (escList cs ++ 34 :: r)) = some (c :: cs, r)
                    rw [decStr_esc f 114 13 _ (by omega) (by rfl), hIH, Option.map_some']
                    rw [show (13 : Nat) = c.toNat from h13.symm, Char.ofNat_toNat]
                  · rw [if_neg h13]
                    by_cases h32 : c.toNat < 32
                    · rw [if_pos h32]
                      rw [show uEsc c.toNat ++ (escList cs ++ 34 :: r)
                          = 92 :: 117 :: (hex4 c.toNat ++ (escList cs ++ 34 :: r)) from rfl]
                      rw [decStr_u f c.toNat _ (by omega) (by omega), hIH, Option.map_some',
                        Char.ofNat_toNat]
                    · rw [if_neg h32]
                      by_cases h127 : c.toNat < 127
                      · rw [if_pos h127]
                        show decStr (f + 1) (c.toNat :: (escList cs ++ 34 :: r))
                          = some (c :: cs, r)
                        rw [decStr_lit f c.toNat _ (by omega) (by omega), hIH,
                          Option.map_some', Char.ofNat_toNat]
                      · rw [if_neg h127]
                        by_cases hbmp : c.toNat < 65536
                        · rw [if_pos hbmp]
                          rw [show uEsc c.toNat ++ (escList cs ++ 34 :: r)
                              = 92 :: 117 :: (hex4 c.toNat ++ (escList cs ++ 34 :: r)) from rfl]
                          rw [decStr_u f c.toNat _ (by omega) (by omega), hIH,
                            Option.map_some', Char.ofNat_toNat]
                        · rw [if_neg hbmp]
                          rw [List.append_assoc]
                          rw [decStr_pair f c.toNat _ (by omega) (by omega), hIH,
                            Option.map_some', Char.ofNat_toNat]

/-- Strings followed by a closing quote decode uniquely, so escList is
injective in context. -/
theorem escList_inj_append {s1 s2 : List Char} {r1 r2 : List Nat}
    (h : escList s1 ++ 34 :: r1 = escList s2 ++ 34 :: r2) : s1 = s2 ∧ r1 = r2 := by
  have h1 := decStr_escList s1 (s1.length + s2.length + 1) r1 (by omega)
  have h2 := decStr_escList s2 (s1.length + s2.length + 1) r2 (by omega)
  rw [h] at h1
  rw [h1] at h2
  injection h2 with h2
  exact ⟨congrArg Prod.fst h2, congrArg Prod.snd h2⟩

theorem string_data_inj {s t : String} (h : s.data = t.data) : s = t := by
  cases s
  cases t
  exact congrArg String.mk h

/-! ### Number rendering of json.dumps -/

/-- Decimal digits of a natural number, most significant first. -/
def renderNat (n : Nat) : List Nat :=
  if n = 0 then [48] else ((Nat.digits 10 n).map (fun d => d + 48)).reverse

/-- Rendering of a Python int. -/
def renderInt (i : ℤ) : List Nat :=
  if i < 0 then 45 :: renderNat i.natAbs else renderNat i.natAbs

/-- Rendering of a two-decimal Python float (repr of the amount as
persisted: integer part, then one or two fractional digits with the
trailing zero stripped but at least one digit kept). -/
def renderNum (k : ℤ) : List Nat :=
  (if k < 0 then [45] else []) ++ renderNat (k.natAbs / 100) ++ 46 ::
    (if k.natAbs % 100 % 10 = 0 then [48 + k.natAbs % 100 / 10]
     else [48 + k.natAbs % 100 / 10, 48 + k.natAbs % 100 % 10])

/-- Digit byte test. -/
def isDigitB (c : Nat) : Bool := decide (48 ≤ c) && decide (c ≤ 57)

/-- Bytes that may occur inside a JSON number token. -/
def numCharB (c : Nat) : Bool := isDigitB c || c == 45 || c == 46

theorem renderNat_digits (n : Nat) : ∀ c ∈ renderNat n, isDigitB c = true := by
  intro c hc
  rw [renderNat] at hc
  by_cases h0 : n = 0
  · rw [if_pos h0] at hc
    rw [List.mem_singleton] at hc
    rw [hc]
    decide
  · rw [if_neg h0] at hc
    rw [List.mem_reverse] at hc
    obtain ⟨d, hd, hdc⟩ := List.mem_map.mp hc
    have hlt : d < 10 := Nat.digits_lt_base (by norm_num) hd
    rw [← hdc, isDigitB]
    simp only [Bool.and_eq_true, decide_eq_true_eq]
    omega

theorem renderNat_ne_nil (n : Nat) : renderNat n ≠ [] := by
  rw [renderNat]
  by_cases h0 : n = 0
  · rw [if_pos h0]
    simp
  · rw [if_neg h0]
    simp [Nat.digits_ne_nil_iff_ne_zero.mpr h0]

theorem renderNat_inj {n1 n2 : Nat} (h : renderNat n1 = renderNat n2) : n1 = n2 := by
  rw [renderNat, renderNat] at h
  by_cases h1 : n1 = 0
  · by_cases h2 : n2 = 0
    · rw [h1, h2]
    · rw [if_pos h1, if_neg h2] at h
      have hmap : (Nat.digits 10 n2).map (fun d => d + 48) = [48] := by
        have := congrArg List.reverse h
        simpa using this.symm
      have hdig : Nat.digits 10 n2 = [0] := by
        cases hd : Nat.digits 10 n2 with
        | nil => rw [hd] at hmap; simp at hmap
        | cons d ds =>
          rw [hd, List.map_cons] at hmap
          injection hmap with ha hb
          have : ds = [] := by
            cases ds with
            | nil => rfl
            | cons e es => simp at hb
          rw [this]
          have : d = 0 := by omega
          rw [this]
      have := Nat.ofDigits_digits 10 n2
      rw [hdig] at this
      simp [Nat.ofDigits] at this
      exact absurd this.symm h2
  · by_cases h2 : n2 = 0
    · rw [if_neg h1, if_pos h2] at h
      have hmap : (Nat.digits 10 n1).map (fun d => d + 48) = [48] := by
        have := congrArg List.reverse h
        simpa using this
      have hdig : Nat.digits 10 n1 = [0] := by
        cases hd : Nat.digits 10 n1 with
        | nil => rw [hd] at hmap; simp at hmap
        | cons d ds =>
          rw [hd, List.map_cons] at hmap
          injection hmap with ha hb
          have : ds = [] := by
            cases ds with
            | nil => rfl
            | cons e es => simp at hb
          rw [this]
          have : d = 0 := by omega
          rw [this]
      have := Nat.ofDigits_digits 10 n1
      rw [hdig] at this
      simp [Nat.ofDigits] at this
      exact absurd this.symm h1
    · rw [if_neg h1, if_neg h2] at h
      have hrev := congrArg List.reverse h
      simp only [List.reverse_reverse] at hrev
      have hdig : Nat.digits 10 n1 = Nat.digits 10 n2 := by
        have hinj : Function.Injective (fun d : Nat => d + 48) := fun a b hab => by
          simp only [] at hab
          omega
        exact List.map_injective_iff.mpr hinj hrev
      have e1 := Nat.ofDigits_digits 10 n1
      have e2 := Nat.ofDigits_digits 10 n2
      rw [← e1, ← e2, hdig]

theorem renderInt_head_digit (m : Nat) : ∀ c, (renderNat m).head? = some c → isDigitB c = true := by
  intro c hc
  cases hm : renderNat m with
  | nil => exact absurd hm (renderNat_ne_nil m)
  | cons d ds =>
    rw [hm, List.head?_cons] at hc
    injection hc with hc
    rw [← hc]
    exact renderNat_digits m d (by rw [hm]; exact List.mem_cons_self _ _)

theorem renderInt_inj {i1 i2 : ℤ} (h : renderInt i1 = renderInt i2) : i1 = i2 := by
  rw [renderInt, renderInt] at h
  by_cases h1 : i1 < 0
  · by_cases h2 : i2 < 0
    · rw [if_pos h1, if_pos h2] at h
      injection h with _ h
      have := renderNat_inj h
      omega
    · rw [if_pos h1, if_neg h2] at h
      have h45 : (renderNat i2.natAbs).head? = some 45 := by
        rw [← h, List.head?_cons]
      have := renderInt_head_digit i2.natAbs 45 h45
      simp [isDigitB] at this
  · by_cases h2 : i2 < 0
    · rw [if_neg h1, if_pos h2] at h
      have h45 : (renderNat i1.natAbs).head? = some 45 := by
        rw [h, List.head?_cons]
      have := renderInt_head_digit i1.natAbs 45 h45
      simp [isDigitB] at this
    · rw [if_neg h1, if_neg h2] at h
      have := renderNat_inj h
      omega

theorem renderInt_chars (i : ℤ) : ∀ c ∈ renderInt i, numCharB c = true := by
  intro c hc
  rw [renderInt] at hc
  have hdig : ∀ d, isDigitB d = true → numCharB d = true := by
    intro d hd
    rw [numCharB, hd]
    rfl
  by_cases h1 : i < 0
  · rw [if_pos h1] at hc
    rcases List.mem_cons.mp hc with h | h
    · rw [h]
      decide
    · exact hdig c (renderNat_digits _ c h)
  · rw [if_neg h1] at hc
    exact hdig c (renderNat_digits _ c hc)

theorem renderNum_chars (k : ℤ) : ∀ c ∈ renderNum k, numCharB c = true := by
  intro c hc
  rw [renderNum] at hc
  have hdig : ∀ d, isDigitB d = true → numCharB d = true := by
    intro d hd
    rw [numCharB, hd]
    rfl
  rcases List.mem_append.mp hc with h | h
  · rcases List.mem_append.mp h with h | h
    · by_cases hs : k < 0
      · rw [if_pos hs] at h
        rw [List.mem_singleton] at h
        rw [h]
        decide
      · rw [if_neg hs] at h
        simp at h
    · exact hdig c (renderNat_digits _ c h)
  · rcases List.mem_cons.mp h with h | h
    · rw [h]
      decide
    · have hfr : k.natAbs % 100 % 10 ≤ 9 := by omega
      have hft : k.natAbs % 100 / 10 ≤ 9 := by omega
      by_cases hz : k.natAbs % 100 % 10 = 0
      · rw [if_pos hz, List.mem_singleton] at h
        rw [h, numCharB, isDigitB]
        simp only [Bool.or_eq_true, Bool.and_eq_true, decide_eq_true_eq]
        left
        left
        omega
      · rw [if_neg hz] at h
        rcases List.mem_cons.mp h with h | h
        · rw [h, numCharB, isDigitB]
          simp only [Bool.or_eq_true, Bool.and_eq_true, decide_eq_true_eq]
          left
          left
          omega
        · rw [List.mem_singleton] at h
          rw [h, numCharB, isDigitB]
          simp only [Bool.or_eq_true, Bool.and_eq_true, decide_eq_true_eq]
          left
          left
          omega

/-- Tokens consisting of characters satisfying p split uniquely off a
tail whose head does not satisfy p. -/
theorem append_token_inj (p : Nat → Bool) :
    ∀ (a1 : List Nat) {a2 r1 r2 : List Nat},
      (∀ c ∈ a1, p c = true) → (∀ c ∈ a2, p c = true) →
      (∀ c, r1.head? = some c → p c = false) →
      (∀ c, r2.head? = some c → p c = false) →
      a1 ++ r1 = a2 ++ r2 → a1 = a2 ∧ r1 = r2 := by
  intro a1
  induction a1 with
  | nil =>
    intro a2 r1 r2 _ ha2 hr1 _ h
    cases a2 with
    | nil => exact ⟨rfl, h⟩
    | cons y ys =>
      rw [List.nil_append] at h
      have hy : r1.head? = some y := by
        rw [h]
        rfl
      have hfalse := hr1 y hy
      have htrue := ha2 y (List.mem_cons_self _ _)
      rw [htrue] at hfalse
      exact absurd hfalse (by simp)
  | cons x xs ih =>
    intro a2 r1 r2 ha1 ha2 hr1 hr2 h
    cases a2 with
    | nil =>
      rw [List.nil_append] at h
      have hx : r2.head? = some x := by
        rw [← h]
        rfl
      have h1 := hr2 x hx
      have h2 := ha1 x (List.mem_cons_self _ _)
      rw [h2] at h1
      exact absurd h1 (by simp)
    | cons y ys =>
      rw [List.cons_append, List.cons_append] at h
      injection h with hxy h
      obtain ⟨he1, he2⟩ := ih (fun c hc => ha1 c (List.mem_cons_of_mem _ hc))
        (fun c hc => ha2 c (List.mem_cons_of_mem _ hc)) hr1 hr2 h
      rw [hxy, he1, he2]
      exact ⟨rfl, rfl⟩

theorem renderNum_inj {k1 k2 : ℤ} (h : renderNum k1 = renderNum k2) : k1 = k2 := by
  rw [renderNum, renderNum] at h
  have hsign : ∀ (a b : ℤ), a < 0 → ¬(b < 0) →
      ([45] ++ renderNat (a.natAbs / 100) ++ 46 ::
        (if a.natAbs % 100 % 10 = 0 then [48 + a.natAbs % 100 / 10]
         else [48 + a.natAbs % 100 / 10, 48 + a.natAbs % 100 % 10])) ≠
      ([] ++ renderNat (b.natAbs / 100) ++ 46 ::
        (if b.natAbs % 100 % 10 = 0 then [48 + b.natAbs % 100 / 10]
         else [48 + b.natAbs % 100 / 10, 48 + b.natAbs % 100 % 10])) := by
    intro a b _ _ hcon
    rw [List.nil_append] at hcon
    have h45 : (renderNat (b.natAbs / 100)).head? = some 45 := by
      cases hm : renderNat (b.natAbs / 100) with
      | nil => exact absurd hm (renderNat_ne_nil _)
      | cons d ds =>
        rw [hm] at hcon
        rw [List.cons_append, List.cons_append] at hcon
        injection hcon with hd _
        rw [List.head?_cons, hd]
    have := renderInt_head_digit (b.natAbs / 100) 45 h45
    simp [isDigitB] at this
  have hbody : ∀ (a b : ℤ),
      (renderNat (a.natAbs / 100) ++ 46 ::
        (if a.natAbs % 100 % 10 = 0 then [48 + a.natAbs % 100 / 10]
         else [48 + a.natAbs % 100 / 10, 48 + a.natAbs % 100 % 10])) =
      (renderNat (b.natAbs / 100) ++ 46 ::
        (if b.natAbs % 100 % 10 = 0 then [48 + b.natAbs % 100 / 10]
         else [48 + b.natAbs % 100 / 10, 48 + b.natAbs % 100 % 10])) →
      a.natAbs = b.natAbs := by
    intro a b hb
    obtain ⟨hq, hrest⟩ := append_token_inj isDigitB _
      (renderNat_digits _) (renderNat_digits _)
      (fun c hc => by
        rw [List.head?_cons] at hc
        injection hc with hc
        rw [← hc]
        decide)
      (fun c hc => by
        rw [List.head?_cons] at hc
        injection hc with hc
        rw [← hc]
        decide)
      hb
    have hq2 : a.natAbs / 100 = b.natAbs / 100 := renderNat_inj hq
    injection hrest with _ hfp
    have hfr : a.natAbs % 100 = b.natAbs % 100 := by
      by_cases hz1 : a.natAbs % 100 % 10 = 0
      · by_cases hz2 : b.natAbs % 100 % 10 = 0
        · rw [if_pos hz1, if_pos hz2] at hfp
          injection hfp with h1 _
          omega
        · rw [if_pos hz1, if_neg hz2] at hfp
          injection hfp with _ h2
          exact absurd h2.symm (by simp)
      · by_cases hz2 : b.natAbs % 100 % 10 = 0
        · rw [if_neg hz1, if_pos hz2] at hfp
          injection hfp with _ h2
          exact absurd h2 (by simp)
        · rw [if_neg hz1, if_neg hz2] at hfp
          injection hfp with h1 h2
          injection h2 with h2 _
          omega
    omega
  by_cases h1 : k1 < 0
  · by_cases h2 : k2 < 0
    · rw [if_pos h1, if_pos h2] at h
      rw [List.cons_append, List.cons_append] at h
      injection h with _ h
      have := hbody k1 k2 h
      omega
    · rw [if_pos h1, if_neg h2] at h
      exact absurd h (hsign k1 k2 h1 h2)
  · by_cases h2 : k2 < 0
    · rw [if_neg h1, if_pos h2] at h
      exact absurd h.symm (hsign k2 k1 h2 h1)
    · rw [if_neg h1, if_neg h2] at h
      rw [List.nil_append, List.nil_append] at h
      have := hbody k1 k2 h
      omega

/-! ### JSON objects and the sorted-key rendering of crypto.py -/

/-- JSON values appearing in the hashed payloads: Python ints, the
two-decimal floats of the amount column (given by their cent value) and
strings. -/
inductive JVal where
  | jI : ℤ → JVal
  | jF : ℤ → JVal
  | jS : String → JVal
deriving DecidableEq

/-- Byte rendering of one JSON value. -/
def renderJVal : JVal → List Nat
  | .jI i => renderInt i
  | .jF k => renderNum k
  | .jS s => 34 :: (escList s.data ++ [34])

/-- Byte rendering of one key/value entry with separator ":". -/
def renderEntry (kv : String × JVal) : List Nat :=
  34 :: (escList kv.1.data ++ (34 :: 58 :: renderJVal kv.2))

/-- Comma-joined entries. -/
def renderEntries : List (String × JVal) → List Nat
  | [] => []
  | [e] => renderEntry e
  | e :: es => renderEntry e ++ 44 :: renderEntries es

/-- Byte rendering of the whole JSON object. -/
def renderObj (l : List (String × JVal)) : List Nat :=
  123 :: (renderEntries l ++ [125])

/-- Code-point lexicographic comparison, the order Python sorts string
keys by under sort_keys=True. -/
def leBytes : List Nat → List Nat → Bool
  | [], _ => true
  | _ :: _, [] => false
  | a :: as, b :: bs => if a < b then true else if b < a then false else leBytes as bs

def keyLe (s t : String) : Bool :=
  leBytes (s.data.map Char.toNat) (t.data.map Char.toNat)

theorem leBytes_total : ∀ x y : List Nat, leBytes x y = false → leBytes y x = true := by
  intro x
  induction x with
  | nil =>
    intro y h
    rw [leBytes] at h
    exact absurd h (by simp)
  | cons a as ih =>
    intro y h
    cases y with
    | nil => rfl
    | cons b bs =>
      rw [leBytes] at h
      rw [leBytes]
      by_cases hab : a < b
      · rw [if_pos hab] at h
        exact absurd h (by simp)
      · rw [if_neg hab] at h
        by_cases hba : b < a
        · rw [if_pos hba]
        · rw [if_neg hba] at h
          rw [if_neg hba, if_neg hab]
          exact ih bs h

theorem leBytes_antisymm : ∀ x y : List Nat,
    leBytes x y = true → leBytes y x = true → x = y := by
  intro x
  induction x with
  | nil =>
    intro y h1 h2
    cases y with
    | nil => rfl
    | cons b bs =>
      rw [leBytes] at h2
      exact absurd h2 (by simp)
  | cons a as ih =>
    intro y h1 h2
    cases y with
    | nil =>
      rw [leBytes] at h1
      exact absurd h1 (by simp)
    | cons b bs =>
      rw [leBytes] at h1 h2
      by_cases hab : a < b
      · rw [if_neg (by omega : ¬b < a), if_pos hab] at h2
        exact absurd h2 (by simp)
      · by_cases hba : b < a
        · rw [if_neg hab, if_pos hba] at h1
          exact absurd h1 (by simp)
        · rw [if_neg hab, if_neg hba] at h1
          rw [if_neg hba, if_neg hab] at h2
          have hd : a = b := by omega
          rw [hd, ih bs h1 h2]

theorem leBytes_trans : ∀ x y z : List Nat,
    leBytes x y = true → leBytes y z = true → leBytes x z = true := by
  intro x
  induction x with
  | nil => intro y z _ _; rfl
  | cons a as ih =>
    intro y z h1 h2
    cases y with
    | nil =>
      rw [leBytes] at h1
      exact absurd h1 (by simp)
    | cons b bs =>
      cases z with
      | nil =>
        rw [leBytes] at h2
        exact absurd h2 (by simp)
      | cons c cs =>
        rw [leBytes] at h1 h2
        rw [leBytes]
        by_cases hac : a < c
        · rw [if_pos hac]
        · by_cases hab : a < b
          · by_cases hbc : b < c
            · omega
            · rw [if_neg hbc] at h2
              by_cases hcb : c < b
              · rw [if_pos hcb] at h2
                exact absurd h2 (by simp)
              · omega
          · by_cases hba : b < a
            · rw [if_neg hab, if_pos hba] at h1
              exact absurd h1 (by simp)
            · have hab2 : a = b := by omega
              by_cases hbc : b < c
              · omega
              · by_cases hcb : c < b
                · rw [if_neg hbc, if_pos hcb] at h2
                  exact absurd h2 (by simp)
                · rw [if_neg hab, if_neg hba] at h1
                  rw [if_neg hbc, if_neg hcb] at h2
                  rw [if_neg hac, if_neg (by omega : ¬c < a)]
                  exact ih bs cs h1 h2

theorem keyLe_total (s t : String) (h : keyLe s t = false) : keyLe t s = true :=
  leBytes_total _ _ h

theorem keyLe_trans (s t u : String) (h1 : keyLe s t = true) (h2 : keyLe t u = true) :
    keyLe s u = true :=
  leBytes_trans _ _ _ h1 h2

theorem keyLe_antisymm (s t : String) (h1 : keyLe s t = true) (h2 : keyLe t s = true) :
    s = t := by
  have hb := leBytes_antisymm _ _ h1 h2
  have hdata : s.data = t.data :=
    List.map_injective_iff.mpr (fun a b hab => char_toNat_inj hab) hb
  exact string_data_inj hdata

/-- Insertion into a key-sorted list (the sort_keys=True order). -/
def insKV (x : String × JVal) : List (String × JVal) → List (String × JVal)
  | [] => [x]
  | y :: l => if keyLe x.1 y.1 then x :: y :: l else y :: insKV x l

/-- Key sort of the entry list, as json.dumps(sort_keys=True) does. -/
def sortKV : List (String × JVal) → List (String × JVal)
  | [] => []
  | x :: l => insKV x (sortKV l)

theorem insKV_perm (x : String × JVal) : ∀ l, (insKV x l).Perm (x :: l) := by
  intro l
  induction l with
  | nil => exact List.Perm.refl _
  | cons y l ih =>
    rw [insKV]
    by_cases h : keyLe x.1 y.1
    · rw [if_pos h]
    · rw [if_neg h]
      exact (ih.cons y).trans (List.Perm.swap x y l)

theorem sortKV_perm : ∀ l, (sortKV l).Perm l := by
  intro l
  induction l with
  | nil => exact List.Perm.refl _
  | cons x l ih =>
    rw [sortKV]
    exact ((insKV_perm x (sortKV l)).trans (ih.cons x))

theorem insKV_pairwise (x : String × JVal) :
    ∀ l, l.Pairwise (fun a b => keyLe a.1 b.1 = true) →
      (insKV x l).Pairwise (fun a b => keyLe a.1 b.1 = true) := by
  intro l
  induction l with
  | nil =>
    intro _
    rw [insKV]
    simp
  | cons y l ih =>
    intro h
    obtain ⟨hy, hl⟩ := List.pairwise_cons.mp h
    rw [insKV]
    by_cases hxy : keyLe x.1 y.1
    · rw [if_pos hxy]
      refine List.pairwise_cons.mpr ⟨?_, h⟩
      intro z hz
      rcases List.mem_cons.mp hz with h1 | h1
      · rw [h1]
        exact hxy
      · exact keyLe_trans _ _ _ hxy (hy z h1)
    · rw [if_neg hxy]
      refine List.pairwise_cons.mpr ⟨?_, ih hl⟩
      intro z hz
      have hz2 : z ∈ x :: l := (insKV_perm x l).mem_iff.mp hz
      rcases List.mem_cons.mp hz2 with h1 | h1
      · rw [h1]
        exact keyLe_total _ _ (Bool.eq_false_iff.mpr hxy)
      · exact hy z h1

theorem sortKV_pairwise : ∀ l, (sortKV l).Pairwise (fun a b => keyLe a.1 b.1 = true) := by
  intro l
  induction l with
  | nil => simp [sortKV]
  | cons x l ih =>
    rw [sortKV]
    exact insKV_pairwise x (sortKV l) ih

/-- Two key-sorted entry lists with distinct keys that are permutations
of one another are equal. -/
theorem perm_pairwise_eq : ∀ {l₁ l₂ : List (String × JVal)}, l₁.Perm l₂ →
    l₁.Pairwise (fun a b => keyLe a.1 b.1 = true) →
    l₂.Pairwise (fun a b => keyLe a.1 b.1 = true) →
    (l₁.map Prod.fst).Nodup → l₁ = l₂ := by
  intro l₁
  induction l₁ with
  | nil =>
    intro l₂ hp _ _ _
    exact List.Perm.nil_eq hp
  | cons x xs ih =>
    intro l₂ hp hs1 hs2 hnd
    cases l₂ with
    | nil =>
      have := hp.length_eq
      simp at this
    | cons y ys =>
      have hx2 : x ∈ y :: ys := hp.mem_iff.mp (List.mem_cons_self _ _)
      have hxy : x = y := by
        rcases List.mem_cons.mp hx2 with h | h
        · exact h
        · have hy1 : y ∈ x :: xs := hp.mem_iff.mpr (List.mem_cons_self _ _)
          rcases List.mem_cons.mp hy1 with h1 | h1
          · exact h1.symm
          · have hle1 : keyLe y.1 x.1 = true := (List.pairwise_cons.mp hs2).1 x h
            have hle2 : keyLe x.1 y.1 = true := (List.pairwise_cons.mp hs1).1 y h1
            have hk : x.1 = y.1 := keyLe_antisymm _ _ hle2 hle1
            rw [List.map_cons, List.nodup_cons] at hnd
            exact absurd (List.mem_map.mpr ⟨y, h1, hk.symm⟩) hnd.1
      subst hxy
      have hp2 : xs.Perm ys := hp.cons_inv
      rw [List.map_cons, List.nodup_cons] at hnd
      rw [ih hp2 (List.pairwise_cons.mp hs1).2 (List.pairwise_cons.mp hs2).2 hnd.2]

/-- The four-entry map audit.py hashes for one settlement line, in the
dict insertion order of the source. -/
def canonEntries (b p a : ℤ) (d : String) : List (String × JVal) :=
  [("batch_id", JVal.jI b), ("participant_id", JVal.jI p),
   ("amount_eur", JVal.jF a), ("description", JVal.jS d)]

theorem sortKV_canon (b p a : ℤ) (d : String) :
    sortKV (canonEntries b p a d) =
      [("amount_eur", JVal.jF a), ("batch_id", JVal.jI b),
       ("description", JVal.jS d), ("participant_id", JVal.jI p)] := rfl

theorem renderObj_canon_inj (b p a : ℤ) (d : String) (b2 p2 a2 : ℤ) (d2 : String)
    (h : renderObj (sortKV (canonEntries b p a d))
      = renderObj (sortKV (canonEntries b2 p2 a2 d2))) :
    b = b2 ∧ p = p2 ∧ a = a2 ∧ d = d2 := by
  rw [sortKV_canon, sortKV_canon] at h
  simp only [renderObj, renderEntries, renderEntry, renderJVal, List.cons_append,
    List.append_assoc, List.nil_append] at h
  injection h with h0 h
  injection h with h0 h
  replace h := List.append_cancel_left h
  injection h with h0 h
  injection h with h0 h
  obtain ⟨hA, h⟩ := append_token_inj numCharB (renderNum a) (renderNum_chars a)
    (renderNum_chars a2)
    (fun c hc => by
      rw [List.head?_cons] at hc
      injection hc with hc
      rw [← hc]
      decide)
    (fun c hc => by
      rw [List.head?_cons] at hc
      injection hc with hc
      rw [← hc]
      decide)
    h
  have haa : a = a2 := renderNum_inj hA
  injection h with h0 h
  injection h with h0 h
  replace h := List.append_cancel_left h
  injection h with h0 h
  injection h with h0 h
  obtain ⟨hB, h⟩ := append_token_inj numCharB (renderInt b) (renderInt_chars b)
    (renderInt_chars b2)
    (fun c hc => by
      rw [List.head?_cons] at hc
      injection hc with hc
      rw [← hc]
      decide)
    (fun c hc => by
      rw [List.head?_cons] at hc
      injection hc with hc
      rw [← hc]
      decide)
    h
  have hbb : b = b2 := renderInt_inj hB
  injection h with h0 h
  injection h with h0 h
  replace h := List.append_cancel_left h
  injection h with h0 h
  injection h with h0 h
  injection h with h0 h
  obtain ⟨hD, h⟩ := escList_inj_append h
  have hdd : d = d2 := string_data_inj hD
  injection h with h0 h
  injection h with h0 h
  replace h := List.append_cancel_left h
  injection h with h0 h
  injection h with h0 h
  obtain ⟨hP, h⟩ := append_token_inj numCharB (renderInt p) (renderInt_chars p)
    (renderInt_chars p2)
    (fun c hc => by
      rw [List.head?_cons] at hc
      injection hc with hc
      rw [← hc]
      decide)
    (fun c hc => by
      rw [List.head?_cons] at hc
      injection hc with hc
      rw [← hc]
      decide)
    h
  have hpp : p = p2 := renderInt_inj hP
  exact ⟨hbb, hpp, haa, hdd⟩

/-! ### SHA-256 (hashlib.sha256, as used by create_transaction_hash) -/

def w32 (x : Nat) : Nat := x % 4294967296

def rotr32 (n x : Nat) : Nat := w32 (x / 2 ^ n + x % 2 ^ n * 2 ^ (32 - n))

def bigSigma0 (x : Nat) : Nat :=
  Nat.xor (Nat.xor (rotr32 2 x) (rotr32 13 x)) (rotr32 22 x)

def bigSigma1 (x : Nat) : Nat :=
  Nat.xor (Nat.xor (rotr32 6 x) (rotr32 11 x)) (rotr32 25 x)

def smallSigma0 (x : Nat) : Nat :=
  Nat.xor (Nat.xor (rotr32 7 x) (rotr32 18 x)) (x / 2 ^ 3)

def smallSigma1 (x : Nat) : Nat :=
  Nat.xor (Nat.xor (rotr32 17 x) (rotr32 19 x)) (x / 2 ^ 10)

def chV (x y z : Nat) : Nat :=
  Nat.xor (Nat.land x y) (Nat.land (Nat.xor x 4294967295) z)

def majV (x y z : Nat) : Nat :=
  Nat.xor (Nat.xor (Nat.land x y) (Nat.land x z)) (Nat.land y z)

/-- Round constants. -/
def K256 : List Nat :=
  [   1116352408, 1899447441, 3049323471, 3921009573, 961987163, 1508970993,
   2453635748, 2870763221, 3624381080, 310598401, 607225278, 1426881987,
   1925078388, 2162078206, 2614888103, 3248222580, 3835390401, 4022224774,
   264347078, 604807628, 770255983, 1249150122, 1555081692, 1996064986,
   2554220882, 2821834349, 2952996808, 3210313671, 3336571891, 3584528711,
   113926993, 338241895, 666307205, 773529912, 1294757372, 1396182291,
   1695183700, 1986661051, 2177026350, 2456956037, 2730485921, 2820302411,
   3259730800, 3345764771, 3516065817, 3600352804, 4094571909, 275423344,
   430227734, 506948616, 659060556, 883997877, 958139571, 1322822218,
   1537002063, 1747873779, 1955562222, 2024104815, 2227730452, 2361852424,
   2428436474, 2756734187, 3204031479, 3329325298]

/-- Big-endian length suffix of the padding (bit length in 8 bytes). -/
def lenBytes64 (n : Nat) : List Nat :=
  [n / 2 ^ 56 % 256, n / 2 ^ 48 % 256, n / 2 ^ 40 % 256, n / 2 ^ 32 % 256,
   n / 2 ^ 24 % 256, n / 2 ^ 16 % 256, n / 2 ^ 8 % 256, n % 256]

/-- Merkle-Damgard padding of the byte message. -/
def padMsg (msg : List Nat) : List Nat :=
  msg ++ 128 :: List.replicate ((119 - msg.length % 64) % 64) 0
    ++ lenBytes64 (8 * msg.length)

/-- Big-endian 32-bit words of the padded byte stream. -/
def toWords : List Nat → List Nat
  | a :: b :: c :: d :: r => (((a * 256 + b) * 256 + c) * 256 + d) :: toWords r
  | _ => []

/-- Chunks of sixteen words, with enough fuel. -/
def wChunks : Nat → List Nat → List (List Nat)
  | 0, _ => []
  | _ + 1, [] => []
  | fuel + 1, l => l.take 16 :: wChunks fuel (l.drop 16)

/-- Message-schedule extension by one word. -/
def extendW (w : List Nat) : Nat → List Nat
  | 0 => w
  | n + 1 =>
    let v := extendW w n
    v ++ [w32 (smallSigma1 (v.getD (v.length - 2) 0) + v.getD (v.length - 7) 0
      + smallSigma0 (v.getD (v.length - 15) 0) + v.getD (v.length - 16) 0)]

/-- The eight working registers. -/
structure H8 where
  a : Nat
  b : Nat
  c : Nat
  d : Nat
  e : Nat
  f : Nat
  g : Nat
  h : Nat

def compressStep (st : H8) (kw : Nat × Nat) : H8 :=
  let t1 := w32 (st.h + bigSigma1 st.e + chV st.e st.f st.g + kw.1 + kw.2)
  let t2 := w32 (bigSigma0 st.a + majV st.a st.b st.c)
  ⟨w32 (t1 + t2), st.a, st.b, st.c, w32 (st.d + t1), st.e, st.f, st.g⟩

def compressBlock (st : H8) (block : List Nat) : H8 :=
  let w := extendW block 48
  let fin := (K256.zip w).foldl compressStep st
  ⟨w32 (st.a + fin.a), w32 (st.b + fin.b), w32 (st.c + fin.c), w32 (st.d + fin.d),
   w32 (st.e + fin.e), w32 (st.f + fin.f), w32 (st.g + fin.g), w32 (st.h + fin.h)⟩

def H0 : H8 := ⟨1779033703, 3144134277, 1013904242, 2773480762, 1359893119, 2600822924, 528734635, 1541459225⟩

def sha256 (msg : List Nat) : H8 :=
  (wChunks (padMsg msg).length (toWords (padMsg msg))).foldl compressBlock H0

def hexChr (n : Nat) : Char := Char.ofNat (hexDig n)

def hex8 (w : Nat) : List Char :=
  [hexChr (w / 268435456 % 16), hexChr (w / 16777216 % 16), hexChr (w / 1048576 % 16),
   hexChr (w / 65536 % 16), hexChr (w / 4096 % 16), hexChr (w / 256 % 16),
   hexChr (w / 16 % 16), hexChr (w % 16)]

/-- Lowercase hex digest of a byte message. -/
def sha256hex (msg : List Nat) : String :=
  String.mk (hex8 (sha256 msg).a ++ hex8 (sha256 msg).b ++ hex8 (sha256 msg).c
    ++ hex8 (sha256 msg).d ++ hex8 (sha256 msg).e ++ hex8 (sha256 msg).f
    ++ hex8 (sha256 msg).g ++ hex8 (sha256 msg).h)

theorem sha256hex_length (msg : List Nat) : (sha256hex msg).length = 64 := by
  rw [sha256hex]
  show (hex8 (sha256 msg).a ++ hex8 (sha256 msg).b ++ hex8 (sha256 msg).c
    ++ hex8 (sha256 msg).d ++ hex8 (sha256 msg).e ++ hex8 (sha256 msg).f
    ++ hex8 (sha256 msg).g ++ hex8 (sha256 msg).h).length = 64
  simp [hex8]

/-- create_transaction_hash (app/utils/crypto.py lines 5-17): canonical
JSON with sorted keys and compact separators, SHA-256 over the UTF-8
bytes, lowercase hex digest. -/
def create_transaction_hash (base : List (String × JVal)) : String :=
  sha256hex (renderObj (sortKV base))

/-! ### Claim C7: determinism and injectivity of the canonical hash -/

/-- C7: hashing the four canonical fields is order-independent - any
permutation of the source map yields the identical digest, because
json.dumps sorts the keys before serializing - and the canonical
serialization is injective at the byte level: records differing in any
of the four fields produce different payload bytes (hence the digest is
computed over distinct inputs). -/
theorem C7_canonical_hash (b p a : ℤ) (d : String)
    (l : List (String × JVal)) (hperm : l.Perm (canonEntries b p a d)) :
    create_transaction_hash l = create_transaction_hash (canonEntries b p a d) ∧
    ∀ (b2 p2 a2 : ℤ) (d2 : String), (b, p, a, d) ≠ (b2, p2, a2, d2) →
      renderObj (sortKV (canonEntries b p a d))
        ≠ renderObj (sortKV (canonEntries b2 p2 a2 d2)) := by
  constructor
  · have hs : sortKV l = sortKV (canonEntries b p a d) := by
      apply perm_pairwise_eq
      · exact (sortKV_perm l).trans (hperm.trans (sortKV_perm _).symm)
      · exact sortKV_pairwise l
      · exact sortKV_pairwise _
      · have h1 : ((sortKV l).map Prod.fst).Perm (l.map Prod.fst) :=
          (sortKV_perm l).map _
        have h2 : (l.map Prod.fst).Perm ((canonEntries b p a d).map Prod.fst) :=
          hperm.map _
        have h3 : ((canonEntries b p a d).map Prod.fst).Nodup := by
          have hmap : (canonEntries b p a d).map Prod.fst
              = ["batch_id", "participant_id", "amount_eur", "description"] := rfl
          rw [hmap]
          decide
        exact (h1.trans h2).nodup_iff.mpr h3
    rw [create_transaction_hash, create_transaction_hash, hs]
  · intro b2 p2 a2 d2 hne hcon
    obtain ⟨h1, h2, h3, h4⟩ := renderObj_canon_inj b p a d b2 p2 a2 d2 hcon
    exact hne (by rw [h1, h2, h3, h4])

def c7Base : List (String × JVal) :=
  [("description", JVal.jS "Net after bilateral netting (energy_community)"),
   ("amount_eur", JVal.jF (-120)), ("batch_id", JVal.jI 1), ("participant_id", JVal.jI 7)]

theorem C7_canonical_hash_witness :
    c7Base.Perm
        (canonEntries 1 7 (-120) "Net after bilateral netting (energy_community)") ∧
    (create_transaction_hash c7Base
        = create_transaction_hash
            (canonEntries 1 7 (-120) "Net after bilateral netting (energy_community)") ∧
      ∀ (b2 p2 a2 : ℤ) (d2 : String),
        ((1 : ℤ), (7 : ℤ), (-120 : ℤ),
            "Net after bilateral netting (energy_community)") ≠ (b2, p2, a2, d2) →
        renderObj (sortKV
            (canonEntries 1 7 (-120) "Net after bilateral netting (energy_community)"))
          ≠ renderObj (sortKV (canonEntries b2 p2 a2 d2))) :=
  ⟨by decide,
    C7_canonical_hash 1 7 (-120) "Net after bilateral netting (energy_community)"
      c7Base (by decide)⟩

/-! ### Claim C2: auditing a freshly settled batch (app/audit.py) -/

/-- The map audit.py lines 105-110 rebuilds for one stored line; the
float amount is the stored two-decimal value, handed to the serializer
as its cent count. -/
def auditBase (l : SettlementLine) : List (String × JVal) :=
  [("batch_id", JVal.jI (l.batch_id : ℤ)),
   ("participant_id", JVal.jI (l.participant_id : ℤ)),
   ("amount_eur", JVal.jF ⌊l.amount_eur * 100⌋),
   ("description", JVal.jS l.description)]

/-- One line of the audit payload (audit.py lines 113-123, the fields
the claims are about). -/
structure AuditLine where
  participant_id : Nat
  amount_eur : ℚ
  description : String
  proof_hash : String
  is_verified : Bool
deriving DecidableEq

/-- The audit payload of get_audit_payload (audit.py lines 96-126). -/
structure AuditPayload where
  batch_id : Nat
  use_case : String
  settlement_lines : List AuditLine
deriving DecidableEq

def auditLineOf (l : SettlementLine) : AuditLine :=
  ⟨l.participant_id, l.amount_eur, l.description, l.proof_hash,
    create_transaction_hash (auditBase l) == l.proof_hash⟩

/-- get_audit_payload (audit.py lines 75-126): 404 when the batch id is
unknown, otherwise the batch header plus one entry per stored line of
the batch with the recreated hash compared against the stored
proof_hash. -/
def get_audit_payload (db : DB) (bid : Nat) : Except String AuditPayload :=
  match db.batches.find? (fun bt => bt.id == bid) with
  | none => .error "Batch not found."
  | some batch =>
    .ok ⟨batch.id, batch.use_case,
      (db.lines.filter (fun l => l.batch_id == bid)).map auditLineOf⟩

def notVerified (lo : AuditLine) : Bool := !lo.is_verified

/-- C2 refuted (code bug): apply_policy_and_settle never computes a
proof hash, so every line is persisted with the schema default "";
get_audit_payload recomputes a 64-character hex digest, which can never
equal "", so immediately auditing the freshly created batch reports
is_verified = false for every settlement line, where the claim asserts
true. -/
theorem C2_fresh_batch_audit_unverified (db : DB) (uc : String) (pol : Policy)
    (evs : List UsageEvent) (out : SettleOut)
    (hb : db.batches = []) (hl : db.lines = [])
    (h : apply_policy_and_settle db uc pol evs = .ok out) :
    ∃ pay : AuditPayload,
      get_audit_payload out.db out.batch.id = .ok pay ∧
      pay.settlement_lines.all notVerified = true := by
  obtain ⟨result, final, stats, heq, heq2, hbal, hfinal, hbatch, hlines, hdb⟩ :=
    settle_spec db uc pol evs out h
  have hbs : out.db.batches = [out.batch] := by
    rw [hdb]
    show db.batches ++ [out.batch] = [out.batch]
    rw [hb]
    rfl
  have hls : out.db.lines = out.lines := by
    rw [hdb]
    show db.lines ++ out.lines = out.lines
    rw [hl]
    rfl
  refine ⟨⟨out.batch.id, out.batch.use_case,
    (out.db.lines.filter (fun l => l.batch_id == out.batch.id)).map auditLineOf⟩, ?_, ?_⟩
  · rw [get_audit_payload, hbs]
    rw [List.find?_cons_of_pos _ (by simp)]
  · rw [List.all_eq_true]
    intro lo hlo
    obtain ⟨l, hlmem, hlof⟩ := List.mem_map.mp hlo
    have hl2 : l ∈ out.lines := by
      rw [← hls]
      exact (List.mem_filter.mp hlmem).1
    rw [hlines] at hl2
    obtain ⟨y, hy, hfy⟩ := List.mem_filterMap.mp hl2
    by_cases hys : |y.2| < tol
    · rw [if_pos hys] at hfy
      exact absurd hfy (by simp)
    · rw [if_neg hys] at hfy
      injection hfy with hfy
      have hph : l.proof_hash = "" := by rw [← hfy]
      have hne : create_transaction_hash (auditBase l) ≠ l.proof_hash := by
        rw [hph]
        intro hcon
        have hlen := sha256hex_length (renderObj (sortKV (auditBase l)))
        rw [create_transaction_hash] at hcon
        rw [hcon] at hlen
        exact absurd hlen (by decide)
      rw [← hlof, notVerified]
      have hver : (auditLineOf l).is_verified
          = (create_transaction_hash (auditBase l) == l.proof_hash) := rfl
      rw [hver, beq_eq_false_iff_ne.mpr hne]
      rfl

def c2P1 : Participant := ⟨1, "Consumer D", Role.consumer⟩

def c2Db : DB := ⟨[c2P1], [], [], 1⟩

def c2Events : List UsageEvent := [⟨1, some c2P1, EventKind.consumption, 10⟩]

section
attribute [local semireducible] Rat.sub Rat.add Rat.mul Rat.inv

def c2Out : SettleOut :=
  (apply_policy_and_settle c2Db "energy_community" [] c2Events).toOption.getD
    ⟨⟨[], [], [], 0⟩, ⟨0, ""⟩, [], [], []⟩

theorem C2_fresh_batch_audit_unverified_witness :
    c2Db.batches = [] ∧ c2Db.lines = [] ∧
    (∃ pay : AuditPayload,
      get_audit_payload c2Out.db c2Out.batch.id = .ok pay ∧
      pay.settlement_lines.all notVerified = true) :=
  ⟨rfl, rfl,
    C2_fresh_batch_audit_unverified c2Db "energy_community" [] c2Events c2Out rfl rfl
      (except_eq_ok_of_toOption (by decide))⟩

end

end Clearing
